import Mathlib

/-!
Verification of the 2D range-add / range-sum segment tree implemented in
`src/python/sumQuery.py` (class `SegmentTree2D` with helper class `Node`).

The embedding is shallow:

* Python integers become `Int`; the added values `v` are taken in `Int`
  (the implementation is parametric in the additive scalar domain).
* The dense `4n x 4m` table of mutable `Node` records is modelled as a total
  map `Nat → Nat → Node` (`Tbl`); the constructor zero-initializes it and
  every mutation `self.tree[a][b].f += ...` becomes a functional override
  (`setNode`).  Both indices follow the implicit binary-tree numbering of the
  source (root `0`, children `2*i+1` and `2*i+2`).
* Python floor division `//` becomes `Int.fdiv`.
* The four mutually calling recursive methods `updateByX`, `updateByY`,
  `queryByX`, `queryByY` become the Lean functions of the same names,
  recursing on the same ranges; their Lean termination proofs reflect the
  termination of the Python recursions.
* The Python methods contain no `raise` statement and perform no input
  validation, but `update` and `query` can still fail with `IndexError` when
  the table built by the constructor is too small (dimensions `n ≤ 0` or
  `m ≤ 0` give an empty or short table).  This is reflected by `Except`-valued
  mirrors (`getN`, `updateByYE`, `updateByXE`, `queryByYE`, `queryByXE`,
  `initE`, `updateE`, `queryE`) that bounds-check every `self.tree[i][j]`
  access against the `4n x 4m` table sizes; for `n, m ≥ 1` all reached
  indices are in range (`nodesOK`, `nodesOK_root`) and the mirrors agree with
  the pure functions (`updateE_ok`, `queryE_ok`).
-/

namespace SumQuery

/-- Mirrors class `Node` of sumQuery.py: four additive accumulators,
all zero-initialized. -/
structure Node where
  partialBoth : Int
  partialY : Int
  partialX : Int
  fullBoth : Int
deriving DecidableEq

/-- The all-zero node produced by `Node.__init__`. -/
def Node.zero : Node := ⟨0, 0, 0, 0⟩

/-- The dense node table `self.tree`, modelled as a total map on index pairs
`(outerIndex, innerIndex)`. -/
abbrev Tbl := Nat → Nat → Node

/-- Functional override of one table entry: the shallow embedding of an
in-place mutation of `self.tree[a][b]`. -/
def setNode (t : Tbl) (a b : Nat) (nd : Node) : Tbl :=
  fun p q => if p = a ∧ q = b then nd else t p q

theorem setNode_same (t : Tbl) (a b : Nat) (nd : Node) : setNode t a b nd a b = nd := by
  simp [setNode]

theorem setNode_other {t : Tbl} {a b : Nat} {nd : Node} {p q : Nat}
    (h : ¬(p = a ∧ q = b)) : setNode t a b nd p q = t p q := by
  simp [setNode, h]

/-- The bottom-up recomputation at the end of the partial-overlap branch of
`updateByY`: the node at `(a, b)` is refreshed from its two children and its
own pending rates, exactly as the three assignment lines of the source. -/
def recompute (t2 : Tbl) (a b : Nat) (yLo yHi : Int) : Tbl :=
  setNode t2 a b { t2 a b with
    partialBoth := (t2 a (2 * b + 1)).partialBoth + (t2 a (2 * b + 2)).partialBoth
      + (t2 a b).partialX * (yHi - yLo + 1),
    partialY := (t2 a (2 * b + 1)).partialY + (t2 a (2 * b + 2)).partialY
      + (t2 a b).fullBoth * (yHi - yLo + 1) }

theorem recompute_other {t2 : Tbl} {a b : Nat} {yLo yHi : Int} {p q : Nat}
    (h : ¬(p = a ∧ q = b)) : recompute t2 a b yLo yHi p q = t2 p q := by
  simp [recompute, setNode, h]

theorem recompute_at (t2 : Tbl) (a b : Nat) (yLo yHi : Int) :
    recompute t2 a b yLo yHi a b
      = { t2 a b with
          partialBoth := (t2 a (2 * b + 1)).partialBoth + (t2 a (2 * b + 2)).partialBoth
            + (t2 a b).partialX * (yHi - yLo + 1),
          partialY := (t2 a (2 * b + 1)).partialY + (t2 a (2 * b + 2)).partialY
            + (t2 a b).fullBoth * (yHi - yLo + 1) } := by
  simp [recompute, setNode]

/-- Number of integers in the closed interval `[lo, hi]` (zero when empty). -/
def olen (lo hi : Int) : Int := max 0 (hi - lo + 1)

/-- For `lo < hi` the split point `(lo + hi) // 2` of the Python code lies in
`[lo, hi)`. -/
theorem midpoint_bounds {lo hi : Int} (h : lo < hi) :
    lo ≤ Int.fdiv (lo + hi) 2 ∧ Int.fdiv (lo + hi) 2 < hi := by
  rw [Int.fdiv_eq_ediv _ (by norm_num)]
  omega

/-- `inSub b d` holds when index `d` lies in the subtree rooted at index `b`
of the implicit binary tree with children `2*i+1`, `2*i+2` (climbing from `d`
through parents `(d-1)/2`). -/
def inSub (b d : Nat) : Bool :=
  if d = b then true
  else if d ≤ b then false
  else inSub b ((d - 1) / 2)
termination_by d
decreasing_by omega

theorem inSub_self (b : Nat) : inSub b b = true := by
  rw [inSub]
  simp

theorem inSub_le {b d : Nat} (h : inSub b d = true) : b ≤ d := by
  induction d using Nat.strong_induction_on with
  | _ d ih =>
    rw [inSub] at h
    split at h
    · omega
    · split at h
      · exact absurd h (by simp)
      · exact le_trans (ih ((d - 1) / 2) (by omega) h) (by omega)

theorem inSub_child1 (b : Nat) : inSub b (2 * b + 1) = true := by
  rw [inSub]
  have h2 : (2 * b + 1 - 1) / 2 = b := by omega
  split
  · rfl
  · split
    · omega
    · rw [h2]; exact inSub_self b

theorem inSub_child2 (b : Nat) : inSub b (2 * b + 2) = true := by
  rw [inSub]
  have h2 : (2 * b + 2 - 1) / 2 = b := by omega
  split
  · rfl
  · split
    · omega
    · rw [h2]; exact inSub_self b

theorem inSub_trans {b c d : Nat} (h1 : inSub b c = true) (h2 : inSub c d = true) :
    inSub b d = true := by
  induction d using Nat.strong_induction_on with
  | _ d ih =>
    rw [inSub] at h2
    split at h2
    · subst d; exact h1
    · split at h2
      · exact absurd h2 (by simp)
      · have hbc := inSub_le h1
        have hsub : inSub b ((d - 1) / 2) = true :=
          ih ((d - 1) / 2) (by omega) h2
        rw [inSub]
        split
        · rfl
        · split
          · have := inSub_le hsub
            omega
          · exact hsub

theorem not_inSub_child1_self (b : Nat) : inSub (2 * b + 1) b = false := by
  cases h : inSub (2 * b + 1) b with
  | false => rfl
  | true => exact absurd (inSub_le h) (by omega)

theorem not_inSub_child2_self (b : Nat) : inSub (2 * b + 2) b = false := by
  cases h : inSub (2 * b + 2) b with
  | false => rfl
  | true => exact absurd (inSub_le h) (by omega)

theorem inSub_sibling {b d : Nat} (h1 : inSub (2 * b + 1) d = true)
    (h2 : inSub (2 * b + 2) d = true) : False := by
  induction d using Nat.strong_induction_on with
  | _ d ih =>
    rw [inSub] at h1
    split at h1
    · subst d
      exact absurd (inSub_le h2) (by omega)
    · split at h1
      · exact absurd h1 (by simp)
      · rw [inSub] at h2
        split at h2
        · subst d
          have hb : (2 * b + 2 - 1) / 2 = b := by omega
          rw [hb] at h1
          exact absurd (inSub_le h1) (by omega)
        · split at h2
          · exact absurd h2 (by simp)
          · exact ih ((d - 1) / 2) (by omega) h1 h2

/-! ### The four recursive operations of `SegmentTree2D` -/

/-- Mirrors `SegmentTree2D.updateByY`: descent over the column (y) dimension
of the inner tree owned by outer node `a`, adding `v` on the update rectangle
`[qxLo,qxHi] x [qyLo,qyHi]`; `covered` records whether the caller already had
the row range fully inside the update. -/
def updateByY (t : Tbl) (a b : Nat) (xLo xHi yLo yHi qxLo qxHi qyLo qyHi v : Int)
    (covered : Bool) : Tbl :=
  if hdisj : qyHi < yLo ∨ yHi < qyLo then
    t
  else if hfull : qyLo ≤ yLo ∧ yHi ≤ qyHi then
    if covered then
      setNode t a b { t a b with
        fullBoth := (t a b).fullBoth + v,
        partialY := (t a b).partialY + v * (yHi - yLo + 1) }
    else
      -- txLo = max(qxLo, xLo), txHi = min(qxHi, xHi) inlined
      setNode t a b { t a b with
        partialX := (t a b).partialX + v * (min qxHi xHi - max qxLo xLo + 1),
        partialBoth := (t a b).partialBoth
          + v * (min qxHi xHi - max qxLo xLo + 1) * (yHi - yLo + 1) }
  else
    -- yMid = (yLo + yHi) // 2 inlined; the table after both child updates is
    -- read back for the bottom-up recomputation of this node
    recompute
      (updateByY
        (updateByY t a (2 * b + 1) xLo xHi yLo (Int.fdiv (yLo + yHi) 2) qxLo qxHi qyLo qyHi v covered)
        a (2 * b + 2) xLo xHi (Int.fdiv (yLo + yHi) 2 + 1) yHi qxLo qxHi qyLo qyHi v covered)
      a b yLo yHi
termination_by (yHi - yLo).toNat
decreasing_by
  · have := midpoint_bounds (show yLo < yHi by omega)
    omega
  · have := midpoint_bounds (show yLo < yHi by omega)
    omega

/-- Mirrors `SegmentTree2D.updateByX`: descent over the row (x) dimension;
`m` is the column count `self.m` of the instance. -/
def updateByX (t : Tbl) (a b : Nat) (m xLo xHi qxLo qxHi qyLo qyHi v : Int) : Tbl :=
  if hdisj : qxHi < xLo ∨ xHi < qxLo then
    t
  else if hfull : qxLo ≤ xLo ∧ xHi ≤ qxHi then
    updateByY t a b xLo xHi 0 (m - 1) qxLo qxHi qyLo qyHi v true
  else
    -- xMid = (xLo + xHi) // 2 inlined; both row children updated, then this node
    updateByY
      (updateByX
        (updateByX t (2 * a + 1) b m xLo (Int.fdiv (xLo + xHi) 2) qxLo qxHi qyLo qyHi v)
        (2 * a + 2) b m (Int.fdiv (xLo + xHi) 2 + 1) xHi qxLo qxHi qyLo qyHi v)
      a b xLo xHi 0 (m - 1) qxLo qxHi qyLo qyHi v false
termination_by (xHi - xLo).toNat
decreasing_by
  · have := midpoint_bounds (show xLo < xHi by omega)
    omega
  · have := midpoint_bounds (show xLo < xHi by omega)
    omega

/-- Mirrors `SegmentTree2D.queryByY`: sum of the queried rectangle restricted
to the column range of inner node `(a, b)`; the row parameters `xLo, xHi` are
the query-relevant row range passed down by `queryByX`. -/
def queryByY (t : Tbl) (a b : Nat) (xLo xHi yLo yHi qxLo qxHi qyLo qyHi : Int) : Int :=
  if hdisj : qyHi < yLo ∨ yHi < qyLo then
    0
  else if hfull : qyLo ≤ yLo ∧ yHi ≤ qyHi then
    if qxLo ≤ xLo ∧ xHi ≤ qxHi then
      (t a b).partialBoth + (t a b).partialY * (xHi - xLo + 1)
    else
      (t a b).partialY * (qxHi - qxLo + 1)
  else
    -- yMid, tyLo = max(yLo,qyLo), tyHi = min(yHi,qyHi), txLo = max(xLo,qxLo),
    -- txHi = min(xHi,qxHi) and lazyResult inlined
    queryByY t a (2 * b + 1) xLo xHi yLo (Int.fdiv (yLo + yHi) 2) qxLo qxHi qyLo qyHi
      + queryByY t a (2 * b + 2) xLo xHi (Int.fdiv (yLo + yHi) 2 + 1) yHi qxLo qxHi qyLo qyHi
      + ((t a b).fullBoth * (min xHi qxHi - max xLo qxLo + 1) * (min yHi qyHi - max yLo qyLo + 1)
        + (if qxLo ≤ xLo ∧ xHi ≤ qxHi then
            (t a b).partialX * (min yHi qyHi - max yLo qyLo + 1)
          else 0))
termination_by (yHi - yLo).toNat
decreasing_by
  · have := midpoint_bounds (show yLo < yHi by omega)
    omega
  · have := midpoint_bounds (show yLo < yHi by omega)
    omega

/-- Mirrors `SegmentTree2D.queryByX`. -/
def queryByX (t : Tbl) (a b : Nat) (m xLo xHi qxLo qxHi qyLo qyHi : Int) : Int :=
  if hdisj : qxHi < xLo ∨ xHi < qxLo then
    0
  else if hfull : qxLo ≤ xLo ∧ xHi ≤ qxHi then
    queryByY t a b xLo xHi 0 (m - 1) qxLo qxHi qyLo qyHi
  else
    -- xMid, txLo = max(qxLo,xLo), txHi = min(qxHi,xHi) inlined
    queryByX t (2 * a + 1) b m xLo (Int.fdiv (xLo + xHi) 2) qxLo qxHi qyLo qyHi
      + queryByX t (2 * a + 2) b m (Int.fdiv (xLo + xHi) 2 + 1) xHi qxLo qxHi qyLo qyHi
      + queryByY t a b xLo xHi 0 (m - 1) (max qxLo xLo) (min qxHi xHi) qyLo qyHi
termination_by (xHi - xLo).toNat
decreasing_by
  · have := midpoint_bounds (show xLo < xHi by omega)
    omega
  · have := midpoint_bounds (show xLo < xHi by omega)
    omega

/-- The `SegmentTree2D` instance: the dimensions `n`, `m` and the node table. -/
structure SegmentTree2D where
  n : Int
  m : Int
  tree : Tbl

/-- Mirrors `SegmentTree2D.__init__ (n, m)`: records the dimensions and
allocates the zero-initialized node table.  The Python constructor performs
no validation of `n` or `m`. -/
def SegmentTree2D.init (n m : Int) : SegmentTree2D :=
  ⟨n, m, fun _ _ => Node.zero⟩

/-- Mirrors `SegmentTree2D.update`. -/
def SegmentTree2D.update (s : SegmentTree2D) (qxLo qxHi qyLo qyHi v : Int) :
    SegmentTree2D :=
  { s with tree := updateByX s.tree 0 0 s.m 0 (s.n - 1) qxLo qxHi qyLo qyHi v }

/-- Mirrors `SegmentTree2D.query`. -/
def SegmentTree2D.query (s : SegmentTree2D) (qxLo qxHi qyLo qyHi : Int) : Int :=
  queryByX s.tree 0 0 s.m 0 (s.n - 1) qxLo qxHi qyLo qyHi

/-- Error-aware reflection of the constructor call.  The Python `__init__`
contains no `raise` and no validation on any path (for non-positive `n` or
`m` the loop `for i in range(4 * n)` simply runs zero times and the table is
empty), so the call always returns an instance. -/
def SegmentTree2D.initE (n m : Int) : Except String SegmentTree2D :=
  Except.ok (SegmentTree2D.init n m)

/-- Bounds-checked table access.  The Python statement `self.tree[i][j]`
indexes a list of `n4 = 4 * n` rows, each a list of `m4 = 4 * m` nodes; the
node indices reached by the recursions are nonnegative, so the access returns
the stored node when `i < n4` and `j < m4` and raises `IndexError` otherwise
(in particular on any access when the table is empty because the instance was
constructed with non-positive dimensions). -/
def getN (t : Tbl) (n4 m4 a b : Nat) : Except String Node :=
  if a < n4 ∧ b < m4 then Except.ok (t a b) else Except.error "IndexError"

/-- Error-aware mirror of `SegmentTree2D.updateByY` over the `4n x 4m` table:
same branch structure and assignments as `updateByY`, with every
`self.tree[...]` access bounds-checked at the point where the Python
statement executes it: the node itself right after the y-disjoint test, and
the two children read back after the recursive calls for the bottom-up
recomputation. -/
def updateByYE (t : Tbl) (n4 m4 a b : Nat) (xLo xHi yLo yHi qxLo qxHi qyLo qyHi v : Int)
    (covered : Bool) : Except String Tbl :=
  if hdisj : qyHi < yLo ∨ yHi < qyLo then
    Except.ok t
  else
    (getN t n4 m4 a b).bind fun node =>
      if hfull : qyLo ≤ yLo ∧ yHi ≤ qyHi then
        if covered then
          Except.ok (setNode t a b { node with
            fullBoth := node.fullBoth + v,
            partialY := node.partialY + v * (yHi - yLo + 1) })
        else
          Except.ok (setNode t a b { node with
            partialX := node.partialX + v * (min qxHi xHi - max qxLo xLo + 1),
            partialBoth := node.partialBoth
              + v * (min qxHi xHi - max qxLo xLo + 1) * (yHi - yLo + 1) })
      else
        (updateByYE t n4 m4 a (2 * b + 1) xLo xHi yLo (Int.fdiv (yLo + yHi) 2) qxLo qxHi qyLo qyHi v covered).bind fun t1 =>
          (updateByYE t1 n4 m4 a (2 * b + 2) xLo xHi (Int.fdiv (yLo + yHi) 2 + 1) yHi qxLo qxHi qyLo qyHi v covered).bind fun t2 =>
            (getN t2 n4 m4 a (2 * b + 1)).bind fun leftNode =>
              (getN t2 n4 m4 a (2 * b + 2)).bind fun rightNode =>
                Except.ok (setNode t2 a b { t2 a b with
                  partialBoth := leftNode.partialBoth + rightNode.partialBoth
                    + (t2 a b).partialX * (yHi - yLo + 1),
                  partialY := leftNode.partialY + rightNode.partialY
                    + (t2 a b).fullBoth * (yHi - yLo + 1) })
termination_by (yHi - yLo).toNat
decreasing_by
  · have := midpoint_bounds (show yLo < yHi by omega)
    omega
  · have := midpoint_bounds (show yLo < yHi by omega)
    omega

/-- Error-aware mirror of `SegmentTree2D.updateByX`: it performs no direct
table access of its own, so errors arise only inside the `updateByY` calls
and the recursion, in the order the Python statements run. -/
def updateByXE (t : Tbl) (n4 m4 a b : Nat) (m xLo xHi qxLo qxHi qyLo qyHi v : Int) :
    Except String Tbl :=
  if hdisj : qxHi < xLo ∨ xHi < qxLo then
    Except.ok t
  else if hfull : qxLo ≤ xLo ∧ xHi ≤ qxHi then
    updateByYE t n4 m4 a b xLo xHi 0 (m - 1) qxLo qxHi qyLo qyHi v true
  else
    (updateByXE t n4 m4 (2 * a + 1) b m xLo (Int.fdiv (xLo + xHi) 2) qxLo qxHi qyLo qyHi v).bind fun t1 =>
      (updateByXE t1 n4 m4 (2 * a + 2) b m (Int.fdiv (xLo + xHi) 2 + 1) xHi qxLo qxHi qyLo qyHi v).bind fun t2 =>
        updateByYE t2 n4 m4 a b xLo xHi 0 (m - 1) qxLo qxHi qyLo qyHi v false
termination_by (xHi - xLo).toNat
decreasing_by
  · have := midpoint_bounds (show xLo < xHi by omega)
    omega
  · have := midpoint_bounds (show xLo < xHi by omega)
    omega

/-- Error-aware mirror of `SegmentTree2D.queryByY`: the node access happens
right after the y-disjoint test; the lazy contribution is computed from the
fetched node and the children are visited only through the recursion. -/
def queryByYE (t : Tbl) (n4 m4 a b : Nat) (xLo xHi yLo yHi qxLo qxHi qyLo qyHi : Int) :
    Except String Int :=
  if hdisj : qyHi < yLo ∨ yHi < qyLo then
    Except.ok 0
  else
    (getN t n4 m4 a b).bind fun node =>
      if hfull : qyLo ≤ yLo ∧ yHi ≤ qyHi then
        if qxLo ≤ xLo ∧ xHi ≤ qxHi then
          Except.ok (node.partialBoth + node.partialY * (xHi - xLo + 1))
        else
          Except.ok (node.partialY * (qxHi - qxLo + 1))
      else
        (queryByYE t n4 m4 a (2 * b + 1) xLo xHi yLo (Int.fdiv (yLo + yHi) 2) qxLo qxHi qyLo qyHi).bind fun leftResult =>
          (queryByYE t n4 m4 a (2 * b + 2) xLo xHi (Int.fdiv (yLo + yHi) 2 + 1) yHi qxLo qxHi qyLo qyHi).bind fun rightResult =>
            Except.ok (leftResult + rightResult
              + (node.fullBoth * (min xHi qxHi - max xLo qxLo + 1) * (min yHi qyHi - max yLo qyLo + 1)
                + (if qxLo ≤ xLo ∧ xHi ≤ qxHi then
                    node.partialX * (min yHi qyHi - max yLo qyLo + 1)
                  else 0)))
termination_by (yHi - yLo).toNat
decreasing_by
  · have := midpoint_bounds (show yLo < yHi by omega)
    omega
  · have := midpoint_bounds (show yLo < yHi by omega)
    omega

/-- Error-aware mirror of `SegmentTree2D.queryByX`. -/
def queryByXE (t : Tbl) (n4 m4 a b : Nat) (m xLo xHi qxLo qxHi qyLo qyHi : Int) :
    Except String Int :=
  if hdisj : qxHi < xLo ∨ xHi < qxLo then
    Except.ok 0
  else if hfull : qxLo ≤ xLo ∧ xHi ≤ qxHi then
    queryByYE t n4 m4 a b xLo xHi 0 (m - 1) qxLo qxHi qyLo qyHi
  else
    (queryByXE t n4 m4 (2 * a + 1) b m xLo (Int.fdiv (xLo + xHi) 2) qxLo qxHi qyLo qyHi).bind fun leftResult =>
      (queryByXE t n4 m4 (2 * a + 2) b m (Int.fdiv (xLo + xHi) 2 + 1) xHi qxLo qxHi qyLo qyHi).bind fun rightResult =>
        (queryByYE t n4 m4 a b xLo xHi 0 (m - 1) (max qxLo xLo) (min qxHi xHi) qyLo qyHi).bind fun thisResult =>
          Except.ok (leftResult + rightResult + thisResult)
termination_by (xHi - xLo).toNat
decreasing_by
  · have := midpoint_bounds (show xLo < xHi by omega)
    omega
  · have := midpoint_bounds (show xLo < xHi by omega)
    omega

/-- Error-aware reflection of `update`: the recursion over the instance with
its `4n x 4m` table, propagating a possible `IndexError`. -/
def SegmentTree2D.updateE (s : SegmentTree2D) (qxLo qxHi qyLo qyHi v : Int) :
    Except String SegmentTree2D :=
  (updateByXE s.tree (4 * s.n).toNat (4 * s.m).toNat 0 0 s.m 0 (s.n - 1) qxLo qxHi qyLo qyHi v).bind fun t =>
    Except.ok { s with tree := t }

/-- Error-aware reflection of `query`, propagating a possible `IndexError`. -/
def SegmentTree2D.queryE (s : SegmentTree2D) (qxLo qxHi qyLo qyHi : Int) :
    Except String Int :=
  queryByXE s.tree (4 * s.n).toNat (4 * s.m).toNat 0 0 s.m 0 (s.n - 1) qxLo qxHi qyLo qyHi

/-- Reduction of `Except.bind` on a success value. -/
theorem bind_okE {α β : Type} (x : α) (f : α → Except String β) :
    (Except.ok x : Except String α).bind f = f x := rfl

/-- Height of the segment recursion over an index range of `L` cells: the
range splits into `⌈L/2⌉` and `⌊L/2⌋` cells and the recursion stops on a
single cell (the left child, with the larger half, dominates). -/
def segDepth (L : Nat) : Nat :=
  if L ≤ 1 then 0 else 1 + segDepth ((L + 1) / 2)
termination_by L
decreasing_by omega

/-- The classic size bound: a tree of height `segDepth L` over `L ≥ 2` cells
has `2 ^ segDepth L ≤ 2 * (L - 1)`. -/
theorem segDepth_le : ∀ L : Nat, 2 ≤ L → 2 ^ segDepth L ≤ 2 * (L - 1) := by
  intro L
  induction L using Nat.strong_induction_on with
  | _ L ih =>
    intro hL
    rw [segDepth, if_neg (by omega)]
    rcases le_or_lt L 2 with h2 | h2
    · have he : (L + 1) / 2 = 1 := by omega
      rw [he, segDepth, if_pos (le_refl 1)]
      norm_num
      omega
    · have h3 : 2 ≤ (L + 1) / 2 := by omega
      have h4 := ih ((L + 1) / 2) (by omega) h3
      have h5 : 2 ^ (1 + segDepth ((L + 1) / 2)) = 2 * 2 ^ segDepth ((L + 1) / 2) := by
        rw [pow_add]
        ring
      omega

/-- `segDepth` is monotone. -/
theorem segDepth_mono : ∀ L2 L1 : Nat, L1 ≤ L2 → segDepth L1 ≤ segDepth L2 := by
  intro L2
  induction L2 using Nat.strong_induction_on with
  | _ L2 ih =>
    intro L1 h
    rcases le_or_lt L1 1 with h1 | h1
    · rw [segDepth, if_pos h1]
      exact Nat.zero_le _
    · conv_lhs => rw [segDepth]
      conv_rhs => rw [segDepth]
      rw [if_neg (show ¬ L1 ≤ 1 by omega), if_neg (show ¬ L2 ≤ 1 by omega)]
      exact Nat.add_le_add_left (ih ((L2 + 1) / 2) (by omega) ((L1 + 1) / 2) (by omega)) 1

/-- All tree indices that the segment recursion over `[lo, hi]` rooted at
index `b` can touch lie below the table bound `sz` (children are required
only when the range can still be split). -/
def nodesOK (b : Nat) (lo hi : Int) (sz : Nat) : Prop :=
  b < sz ∧ (lo < hi →
    nodesOK (2 * b + 1) lo (Int.fdiv (lo + hi) 2) sz
    ∧ nodesOK (2 * b + 2) (Int.fdiv (lo + hi) 2 + 1) hi sz)
termination_by (hi - lo).toNat
decreasing_by
  all_goals
    have hlt : lo < hi := by assumption
    have := midpoint_bounds hlt
    omega

/-- Sufficient index bound for a whole subtree: if
`(b + 2) * 2 ^ segDepth L ≤ sz + 1` for the range size `L`, every index in
the recursion over `[lo, hi]` from `b` stays below `sz` (each child step at
most doubles `index + 2` and decreases the height). -/
theorem nodesOK_of_pow (sz : Nat) :
    ∀ (k b : Nat) (lo hi : Int), (hi - lo).toNat ≤ k →
      (b + 2) * 2 ^ segDepth (hi - lo + 1).toNat ≤ sz + 1 → nodesOK b lo hi sz := by
  intro k
  induction k with
  | zero =>
    intro b lo hi hk h
    have h1 : 1 ≤ 2 ^ segDepth (hi - lo + 1).toNat := Nat.one_le_two_pow
    have h2 : b + 2 ≤ (b + 2) * 2 ^ segDepth (hi - lo + 1).toNat :=
      Nat.le_mul_of_pos_right _ (by omega)
    rw [nodesOK]
    exact ⟨by omega, fun hlt => absurd hlt (by omega)⟩
  | succ k ih =>
    intro b lo hi hk h
    have h1 : 1 ≤ 2 ^ segDepth (hi - lo + 1).toNat := Nat.one_le_two_pow
    have h2 : b + 2 ≤ (b + 2) * 2 ^ segDepth (hi - lo + 1).toNat :=
      Nat.le_mul_of_pos_right _ (by omega)
    rw [nodesOK]
    refine ⟨by omega, fun hlt => ?_⟩
    have hmid := midpoint_bounds hlt
    have hL : 2 ≤ (hi - lo + 1).toNat := by omega
    have hdL : segDepth (hi - lo + 1).toNat
        = 1 + segDepth (((hi - lo + 1).toNat + 1) / 2) := by
      rw [segDepth, if_neg (by omega)]
    have hleft : (Int.fdiv (lo + hi) 2 - lo + 1).toNat = ((hi - lo + 1).toNat + 1) / 2 := by
      rw [Int.fdiv_eq_ediv _ (by norm_num)]
      omega
    have hright : (hi - (Int.fdiv (lo + hi) 2 + 1) + 1).toNat = (hi - lo + 1).toNat / 2 := by
      rw [Int.fdiv_eq_ediv _ (by norm_num)]
      omega
    have e2 : (2 * b + 4) * 2 ^ segDepth (((hi - lo + 1).toNat + 1) / 2)
        = (b + 2) * 2 ^ segDepth (hi - lo + 1).toNat := by
      rw [hdL, pow_add]
      ring
    constructor
    · apply ih (2 * b + 1) lo (Int.fdiv (lo + hi) 2) (by omega)
      rw [hleft]
      have e1 : (2 * b + 1 + 2) * 2 ^ segDepth (((hi - lo + 1).toNat + 1) / 2)
          ≤ (2 * b + 4) * 2 ^ segDepth (((hi - lo + 1).toNat + 1) / 2) :=
        Nat.mul_le_mul (by omega) (le_refl _)
      omega
    · apply ih (2 * b + 2) (Int.fdiv (lo + hi) 2 + 1) hi (by omega)
      rw [hright]
      have m1 : segDepth ((hi - lo + 1).toNat / 2) ≤ segDepth (((hi - lo + 1).toNat + 1) / 2) :=
        segDepth_mono _ _ (by omega)
      have e1 : (2 * b + 2 + 2) * 2 ^ segDepth ((hi - lo + 1).toNat / 2)
          ≤ (2 * b + 4) * 2 ^ segDepth (((hi - lo + 1).toNat + 1) / 2) :=
        Nat.mul_le_mul (by omega) (Nat.pow_le_pow_right (by norm_num) m1)
      omega

/-- For `k ≥ 1`, the recursion from the root over `[0, k-1]` stays inside a
table with `4 * k` entries: `4k` nodes suffice for a segment tree over `k`
cells. -/
theorem nodesOK_root {k : Int} (hk : 1 ≤ k) : nodesOK 0 0 (k - 1) (4 * k).toNat := by
  apply nodesOK_of_pow _ (k - 1 - 0).toNat _ _ _ le_rfl
  have hL : (k - 1 - 0 + 1).toNat = k.toNat := by omega
  rw [hL]
  have h4 : (4 * k).toNat = 4 * k.toNat := by omega
  rw [h4]
  rcases le_or_lt 2 k.toNat with h2 | h2
  · have := segDepth_le k.toNat h2
    omega
  · have h1 : k.toNat = 1 := by omega
    rw [h1, segDepth, if_pos (le_refl 1)]
    norm_num

/-- When the node index and its whole subtree are inside the table, the
bounds-checked `updateByYE` succeeds and agrees with `updateByY`. -/
theorem updateByYE_ok (n4 m4 a : Nat) (xLo xHi qxLo qxHi qyLo qyHi v : Int) (covered : Bool)
    (ha : a < n4) (t : Tbl) (b : Nat) (yLo yHi : Int) (hb : nodesOK b yLo yHi m4) :
    updateByYE t n4 m4 a b xLo xHi yLo yHi qxLo qxHi qyLo qyHi v covered
      = Except.ok (updateByY t a b xLo xHi yLo yHi qxLo qxHi qyLo qyHi v covered) := by
  have main : ∀ (k : Nat) (t : Tbl) (b : Nat) (yLo yHi : Int), (yHi - yLo).toNat ≤ k →
      nodesOK b yLo yHi m4 →
      updateByYE t n4 m4 a b xLo xHi yLo yHi qxLo qxHi qyLo qyHi v covered
        = Except.ok (updateByY t a b xLo xHi yLo yHi qxLo qxHi qyLo qyHi v covered) := by
    intro k
    induction k using Nat.strong_induction_on with
    | _ k ih =>
      intro t b yLo yHi hk hb
      rw [nodesOK] at hb
      obtain ⟨hb1, hbrec⟩ := hb
      by_cases hdisj : qyHi < yLo ∨ yHi < qyLo
      · rw [updateByYE, dif_pos hdisj, updateByY, dif_pos hdisj]
      · have hg : getN t n4 m4 a b = Except.ok (t a b) := by
          rw [getN, if_pos ⟨ha, hb1⟩]
        rw [updateByYE, dif_neg hdisj]
        simp only [hg, bind_okE]
        by_cases hfull : qyLo ≤ yLo ∧ yHi ≤ qyHi
        · rw [dif_pos hfull, updateByY, dif_neg hdisj, dif_pos hfull]
          cases covered <;> rfl
        · rw [dif_neg hfull]
          have hlt : yLo < yHi := by omega
          have hmid := midpoint_bounds hlt
          obtain ⟨hbl, hbr⟩ := hbrec hlt
          have hbl1 : 2 * b + 1 < m4 := by
            rw [nodesOK] at hbl
            exact hbl.1
          have hbr1 : 2 * b + 2 < m4 := by
            rw [nodesOK] at hbr
            exact hbr.1
          have el := ih (Int.fdiv (yLo + yHi) 2 - yLo).toNat (by omega) t (2 * b + 1) yLo
            (Int.fdiv (yLo + yHi) 2) le_rfl hbl
          have er := ih (yHi - (Int.fdiv (yLo + yHi) 2 + 1)).toNat (by omega)
            (updateByY t a (2 * b + 1) xLo xHi yLo (Int.fdiv (yLo + yHi) 2) qxLo qxHi qyLo qyHi v covered)
            (2 * b + 2) (Int.fdiv (yLo + yHi) 2 + 1) yHi le_rfl hbr
          have hgl : getN (updateByY (updateByY t a (2 * b + 1) xLo xHi yLo (Int.fdiv (yLo + yHi) 2) qxLo qxHi qyLo qyHi v covered)
                a (2 * b + 2) xLo xHi (Int.fdiv (yLo + yHi) 2 + 1) yHi qxLo qxHi qyLo qyHi v covered) n4 m4 a (2 * b + 1)
              = Except.ok (updateByY (updateByY t a (2 * b + 1) xLo xHi yLo (Int.fdiv (yLo + yHi) 2) qxLo qxHi qyLo qyHi v covered)
                a (2 * b + 2) xLo xHi (Int.fdiv (yLo + yHi) 2 + 1) yHi qxLo qxHi qyLo qyHi v covered a (2 * b + 1)) := by
            rw [getN, if_pos ⟨ha, hbl1⟩]
          have hgr : getN (updateByY (updateByY t a (2 * b + 1) xLo xHi yLo (Int.fdiv (yLo + yHi) 2) qxLo qxHi qyLo qyHi v covered)
                a (2 * b + 2) xLo xHi (Int.fdiv (yLo + yHi) 2 + 1) yHi qxLo qxHi qyLo qyHi v covered) n4 m4 a (2 * b + 2)
              = Except.ok (updateByY (updateByY t a (2 * b + 1) xLo xHi yLo (Int.fdiv (yLo + yHi) 2) qxLo qxHi qyLo qyHi v covered)
                a (2 * b + 2) xLo xHi (Int.fdiv (yLo + yHi) 2 + 1) yHi qxLo qxHi qyLo qyHi v covered a (2 * b + 2)) := by
            rw [getN, if_pos ⟨ha, hbr1⟩]
          simp only [el, bind_okE, er, hgl, hgr]
          conv_rhs => rw [updateByY]
          rw [dif_neg hdisj, dif_neg hfull]
          rfl
  exact main (yHi - yLo).toNat t b yLo yHi le_rfl hb

/-- When the node index and its whole subtree are inside the table, the
bounds-checked `queryByYE` succeeds and agrees with `queryByY`. -/
theorem queryByYE_ok (n4 m4 a : Nat) (xLo xHi qxLo qxHi qyLo qyHi : Int)
    (ha : a < n4) (t : Tbl) (b : Nat) (yLo yHi : Int) (hb : nodesOK b yLo yHi m4) :
    queryByYE t n4 m4 a b xLo xHi yLo yHi qxLo qxHi qyLo qyHi
      = Except.ok (queryByY t a b xLo xHi yLo yHi qxLo qxHi qyLo qyHi) := by
  have main : ∀ (k : Nat) (b : Nat) (yLo yHi : Int), (yHi - yLo).toNat ≤ k →
      nodesOK b yLo yHi m4 →
      queryByYE t n4 m4 a b xLo xHi yLo yHi qxLo qxHi qyLo qyHi
        = Except.ok (queryByY t a b xLo xHi yLo yHi qxLo qxHi qyLo qyHi) := by
    intro k
    induction k using Nat.strong_induction_on with
    | _ k ih =>
      intro b yLo yHi hk hb
      rw [nodesOK] at hb
      obtain ⟨hb1, hbrec⟩ := hb
      by_cases hdisj : qyHi < yLo ∨ yHi < qyLo
      · rw [queryByYE, dif_pos hdisj, queryByY, dif_pos hdisj]
      · have hg : getN t n4 m4 a b = Except.ok (t a b) := by
          rw [getN, if_pos ⟨ha, hb1⟩]
        rw [queryByYE, dif_neg hdisj]
        simp only [hg, bind_okE]
        by_cases hfull : qyLo ≤ yLo ∧ yHi ≤ qyHi
        · rw [dif_pos hfull, queryByY, dif_neg hdisj, dif_pos hfull]
          by_cases hx : qxLo ≤ xLo ∧ xHi ≤ qxHi
          · rw [if_pos hx, if_pos hx]
          · rw [if_neg hx, if_neg hx]
        · rw [dif_neg hfull]
          have hlt : yLo < yHi := by omega
          have hmid := midpoint_bounds hlt
          obtain ⟨hbl, hbr⟩ := hbrec hlt
          have el := ih (Int.fdiv (yLo + yHi) 2 - yLo).toNat (by omega) (2 * b + 1) yLo
            (Int.fdiv (yLo + yHi) 2) le_rfl hbl
          have er := ih (yHi - (Int.fdiv (yLo + yHi) 2 + 1)).toNat (by omega)
            (2 * b + 2) (Int.fdiv (yLo + yHi) 2 + 1) yHi le_rfl hbr
          simp only [el, bind_okE, er]
          conv_rhs => rw [queryByY]
          rw [dif_neg hdisj, dif_neg hfull]
  exact main (yHi - yLo).toNat b yLo yHi le_rfl hb

/-- When the outer subtree of `a` and the inner tree over `[0, m-1]` are
inside the table bounds, `updateByXE` succeeds and agrees with `updateByX`. -/
theorem updateByXE_ok (n4 m4 b : Nat) (m qxLo qxHi qyLo qyHi v : Int)
    (hy : nodesOK b 0 (m - 1) m4) (t : Tbl) (a : Nat) (xLo xHi : Int)
    (hx : nodesOK a xLo xHi n4) :
    updateByXE t n4 m4 a b m xLo xHi qxLo qxHi qyLo qyHi v
      = Except.ok (updateByX t a b m xLo xHi qxLo qxHi qyLo qyHi v) := by
  have main : ∀ (k : Nat) (t : Tbl) (a : Nat) (xLo xHi : Int), (xHi - xLo).toNat ≤ k →
      nodesOK a xLo xHi n4 →
      updateByXE t n4 m4 a b m xLo xHi qxLo qxHi qyLo qyHi v
        = Except.ok (updateByX t a b m xLo xHi qxLo qxHi qyLo qyHi v) := by
    intro k
    induction k using Nat.strong_induction_on with
    | _ k ih =>
      intro t a xLo xHi hk hx
      rw [nodesOK] at hx
      obtain ⟨hx1, hxrec⟩ := hx
      by_cases hdisj : qxHi < xLo ∨ xHi < qxLo
      · rw [updateByXE, dif_pos hdisj, updateByX, dif_pos hdisj]
      · by_cases hfull : qxLo ≤ xLo ∧ xHi ≤ qxHi
        · rw [updateByXE, dif_neg hdisj, dif_pos hfull, updateByX, dif_neg hdisj, dif_pos hfull]
          exact updateByYE_ok n4 m4 a xLo xHi qxLo qxHi qyLo qyHi v true hx1 t b 0 (m - 1) hy
        · rw [updateByXE, dif_neg hdisj, dif_neg hfull]
          have hlt : xLo < xHi := by omega
          have hmid := midpoint_bounds hlt
          obtain ⟨hxl, hxr⟩ := hxrec hlt
          have el := ih (Int.fdiv (xLo + xHi) 2 - xLo).toNat (by omega) t (2 * a + 1) xLo
            (Int.fdiv (xLo + xHi) 2) le_rfl hxl
          have er := ih (xHi - (Int.fdiv (xLo + xHi) 2 + 1)).toNat (by omega)
            (updateByX t (2 * a + 1) b m xLo (Int.fdiv (xLo + xHi) 2) qxLo qxHi qyLo qyHi v)
            (2 * a + 2) (Int.fdiv (xLo + xHi) 2 + 1) xHi le_rfl hxr
          simp only [el, bind_okE, er]
          rw [updateByYE_ok n4 m4 a xLo xHi qxLo qxHi qyLo qyHi v false hx1
            (updateByX (updateByX t (2 * a + 1) b m xLo (Int.fdiv (xLo + xHi) 2) qxLo qxHi qyLo qyHi v)
              (2 * a + 2) b m (Int.fdiv (xLo + xHi) 2 + 1) xHi qxLo qxHi qyLo qyHi v)
            b 0 (m - 1) hy]
          conv_rhs => rw [updateByX]
          rw [dif_neg hdisj, dif_neg hfull]
  exact main (xHi - xLo).toNat t a xLo xHi le_rfl hx

/-- When the outer subtree of `a` and the inner tree over `[0, m-1]` are
inside the table bounds, `queryByXE` succeeds and agrees with `queryByX`. -/
theorem queryByXE_ok (n4 m4 b : Nat) (m qxLo qxHi qyLo qyHi : Int)
    (hy : nodesOK b 0 (m - 1) m4) (t : Tbl) (a : Nat) (xLo xHi : Int)
    (hx : nodesOK a xLo xHi n4) :
    queryByXE t n4 m4 a b m xLo xHi qxLo qxHi qyLo qyHi
      = Except.ok (queryByX t a b m xLo xHi qxLo qxHi qyLo qyHi) := by
  have main : ∀ (k : Nat) (a : Nat) (xLo xHi : Int), (xHi - xLo).toNat ≤ k →
      nodesOK a xLo xHi n4 →
      queryByXE t n4 m4 a b m xLo xHi qxLo qxHi qyLo qyHi
        = Except.ok (queryByX t a b m xLo xHi qxLo qxHi qyLo qyHi) := by
    intro k
    induction k using Nat.strong_induction_on with
    | _ k ih =>
      intro a xLo xHi hk hx
      rw [nodesOK] at hx
      obtain ⟨hx1, hxrec⟩ := hx
      by_cases hdisj : qxHi < xLo ∨ xHi < qxLo
      · rw [queryByXE, dif_pos hdisj, queryByX, dif_pos hdisj]
      · by_cases hfull : qxLo ≤ xLo ∧ xHi ≤ qxHi
        · rw [queryByXE, dif_neg hdisj, dif_pos hfull, queryByX, dif_neg hdisj, dif_pos hfull]
          exact queryByYE_ok n4 m4 a xLo xHi qxLo qxHi qyLo qyHi hx1 t b 0 (m - 1) hy
        · rw [queryByXE, dif_neg hdisj, dif_neg hfull]
          have hlt : xLo < xHi := by omega
          have hmid := midpoint_bounds hlt
          obtain ⟨hxl, hxr⟩ := hxrec hlt
          have el := ih (Int.fdiv (xLo + xHi) 2 - xLo).toNat (by omega) (2 * a + 1) xLo
            (Int.fdiv (xLo + xHi) 2) le_rfl hxl
          have er := ih (xHi - (Int.fdiv (xLo + xHi) 2 + 1)).toNat (by omega)
            (2 * a + 2) (Int.fdiv (xLo + xHi) 2 + 1) xHi le_rfl hxr
          have em := queryByYE_ok n4 m4 a xLo xHi (max qxLo xLo) (min qxHi xHi) qyLo qyHi hx1
            t b 0 (m - 1) hy
          simp only [el, bind_okE, er, em]
          conv_rhs => rw [queryByX]
          rw [dif_neg hdisj, dif_neg hfull]
  exact main (xHi - xLo).toNat a xLo xHi le_rfl hx

/-- On an instance with positive dimensions, `update` raises nothing: the
bounds-checked run succeeds and returns the pure result, for arbitrary
rectangle coordinates. -/
theorem updateE_ok (s : SegmentTree2D) (qxLo qxHi qyLo qyHi v : Int)
    (hn : 1 ≤ s.n) (hm : 1 ≤ s.m) :
    s.updateE qxLo qxHi qyLo qyHi v = Except.ok (s.update qxLo qxHi qyLo qyHi v) := by
  rw [SegmentTree2D.updateE,
    updateByXE_ok (4 * s.n).toNat (4 * s.m).toNat 0 s.m qxLo qxHi qyLo qyHi v
      (nodesOK_root hm) s.tree 0 0 (s.n - 1) (nodesOK_root hn)]
  rfl

/-- On an instance with positive dimensions, `query` raises nothing. -/
theorem queryE_ok (s : SegmentTree2D) (qxLo qxHi qyLo qyHi : Int)
    (hn : 1 ≤ s.n) (hm : 1 ≤ s.m) :
    s.queryE qxLo qxHi qyLo qyHi = Except.ok (s.query qxLo qxHi qyLo qyHi) := by
  rw [SegmentTree2D.queryE,
    queryByXE_ok (4 * s.n).toNat (4 * s.m).toNat 0 s.m qxLo qxHi qyLo qyHi
      (nodesOK_root hm) s.tree 0 0 (s.n - 1) (nodesOK_root hn)]
  rfl

/-- On the degenerate instance built with `n = 0` the table is empty, and
`update(-5, 5, 0, 0, 7)` reaches the node access `self.tree[0][0]` inside
`updateByY` (the row range `[0, -1]` is not disjoint from `[-5, 5]` and is
fully covered, the column range `[0, 0]` is not disjoint from `[0, 0]`), so
the call raises `IndexError`. -/
theorem updateE_degenerate :
    (SegmentTree2D.init 0 1).updateE (-5) 5 0 0 7 = Except.error "IndexError" := by
  rw [SegmentTree2D.updateE, updateByXE, dif_neg (by decide), dif_pos (by decide),
    updateByYE, dif_neg (by decide), getN, if_neg (by decide)]
  rfl

/-- One `update` call, as data. -/
structure UpdOp where
  xLo : Int
  xHi : Int
  yLo : Int
  yHi : Int
  v : Int
deriving DecidableEq

/-- Apply one recorded update to an instance. -/
def applyUpd (s : SegmentTree2D) (u : UpdOp) : SegmentTree2D :=
  s.update u.xLo u.xHi u.yLo u.yHi u.v

/-- The update rectangle is in bounds for an `n x m` grid, with ordered
coordinates. -/
def UpdOp.inB (n m : Int) (u : UpdOp) : Prop :=
  0 ≤ u.xLo ∧ u.xLo ≤ u.xHi ∧ u.xHi ≤ n - 1 ∧
    0 ≤ u.yLo ∧ u.yLo ≤ u.yHi ∧ u.yHi ≤ m - 1

/-- The query rectangle `[qxLo,qxHi] x [qyLo,qyHi]` is in bounds. -/
def rectInB (n m qxLo qxHi qyLo qyHi : Int) : Prop :=
  0 ≤ qxLo ∧ qxLo ≤ qxHi ∧ qxHi ≤ n - 1 ∧
    0 ≤ qyLo ∧ qyLo ≤ qyHi ∧ qyHi ≤ m - 1

instance (n m : Int) (u : UpdOp) : Decidable (u.inB n m) := by
  unfold UpdOp.inB
  infer_instance

instance (n m qxLo qxHi qyLo qyHi : Int) : Decidable (rectInB n m qxLo qxHi qyLo qyHi) := by
  unfold rectInB
  infer_instance

/-- `v_i` times the number of grid cells in the intersection of the update
rectangle with the query rectangle. -/
def contrib (u : UpdOp) (qxLo qxHi qyLo qyHi : Int) : Int :=
  u.v * olen (max u.xLo qxLo) (min u.xHi qxHi) * olen (max u.yLo qyLo) (min u.yHi qyHi)

/-! ### Frame and congruence lemmas

`updateByY` at inner node `(a, b)` only writes table entries `(a, q)` with
`q` in the subtree of `b`; `queryByY` only reads such entries.  Analogous
facts hold for the outer index of `updateByX` / `queryByX`. -/

theorem inSub_of_parent {c q : Nat} (hq : 0 < q) (h : inSub c ((q - 1) / 2) = true) :
    inSub c q = true := by
  rw [inSub]
  split
  · rfl
  · split
    · have := inSub_le h
      omega
    · exact h

theorem inSub_cases {b q : Nat} (h : inSub b q = true) :
    q = b ∨ inSub (2 * b + 1) q = true ∨ inSub (2 * b + 2) q = true := by
  induction q using Nat.strong_induction_on with
  | _ q ih =>
    rw [inSub] at h
    split at h
    · left; assumption
    · split at h
      · exact absurd h (by simp)
      · rcases ih ((q - 1) / 2) (by omega) h with hp | hp | hp
        · right
          have hq : q = 2 * b + 1 ∨ q = 2 * b + 2 := by omega
          rcases hq with hq | hq <;> subst hq
          · exact Or.inl (inSub_self _)
          · exact Or.inr (inSub_self _)
        · exact Or.inr (Or.inl (inSub_of_parent (by omega) hp))
        · exact Or.inr (Or.inr (inSub_of_parent (by omega) hp))

theorem updateByY_frame (t : Tbl) (a b : Nat)
    (xLo xHi yLo yHi qxLo qxHi qyLo qyHi v : Int) (covered : Bool)
    (p q : Nat) (h : p ≠ a ∨ inSub b q = false) :
    updateByY t a b xLo xHi yLo yHi qxLo qxHi qyLo qyHi v covered p q = t p q := by
  induction t, a, b, xLo, xHi, yLo, yHi, qxLo, qxHi, qyLo, qyHi, v, covered
    using updateByY.induct with
  | case1 t a b xLo xHi yLo yHi qxLo qxHi qyLo qyHi v covered hdisj =>
    rw [updateByY]
    simp only [hdisj, dite_true]
  | case2 t a b xLo xHi yLo yHi qxLo qxHi qyLo qyHi v hdisj hfull =>
    rw [updateByY]
    simp only [hdisj, hfull, dite_false, dite_true, if_true]
    have : ¬(p = a ∧ q = b) := by
      rintro ⟨rfl, rfl⟩
      rcases h with h | h
      · exact h rfl
      · rw [inSub_self] at h; exact Bool.true_eq_false.mp h
    simp [setNode, this]
  | case3 t a b xLo xHi yLo yHi qxLo qxHi qyLo qyHi v covered hdisj hfull hcov =>
    rw [updateByY]
    simp only [hdisj, hfull, dite_false, dite_true]
    rw [if_neg hcov]
    have : ¬(p = a ∧ q = b) := by
      rintro ⟨rfl, rfl⟩
      rcases h with h | h
      · exact h rfl
      · rw [inSub_self] at h; exact Bool.true_eq_false.mp h
    simp [setNode, this]
  | case4 t a b xLo xHi yLo yHi qxLo qxHi qyLo qyHi v covered hdisj hfull ihl ihr =>
    rw [updateByY]
    simp only [hdisj, hfull, dite_false]
    have hq1 : p ≠ a ∨ inSub (2 * b + 1) q = false := by
      rcases h with h | h
      · exact Or.inl h
      · refine Or.inr ?_
        cases hc : inSub (2 * b + 1) q
        · rfl
        · rw [inSub_trans (inSub_child1 b) hc] at h
          exact absurd h (by simp)
    have hq2 : p ≠ a ∨ inSub (2 * b + 2) q = false := by
      rcases h with h | h
      · exact Or.inl h
      · refine Or.inr ?_
        cases hc : inSub (2 * b + 2) q
        · rfl
        · rw [inSub_trans (inSub_child2 b) hc] at h
          exact absurd h (by simp)
    have hb : ¬(p = a ∧ q = b) := by
      rintro ⟨rfl, rfl⟩
      rcases h with h | h
      · exact h rfl
      · rw [inSub_self] at h; exact Bool.true_eq_false.mp h
    rw [recompute_other hb, ihr hq2]
    exact ihl hq1

/-- Implicit-argument form of `updateByY_frame`, convenient as a rewrite/term. -/
theorem updY_frame {t : Tbl} {a b : Nat}
    {xLo xHi yLo yHi qxLo qxHi qyLo qyHi v : Int} {covered : Bool}
    {p q : Nat} (h : p ≠ a ∨ inSub b q = false) :
    updateByY t a b xLo xHi yLo yHi qxLo qxHi qyLo qyHi v covered p q = t p q :=
  updateByY_frame t a b xLo xHi yLo yHi qxLo qxHi qyLo qyHi v covered p q h

theorem not_inSub_21 (b : Nat) : inSub (2 * b + 2) (2 * b + 1) = false := by
  cases h : inSub (2 * b + 2) (2 * b + 1) with
  | false => rfl
  | true => exact absurd (inSub_le h) (by omega)

theorem not_inSub_12 (b : Nat) : inSub (2 * b + 1) (2 * b + 2) = false := by
  cases h : inSub (2 * b + 1) (2 * b + 2) with
  | false => rfl
  | true => exact absurd (inSub_sibling h (inSub_self _)) not_false

theorem inSub_false_of_sibling1 {b q : Nat} (hq : inSub (2 * b + 2) q = true) :
    inSub (2 * b + 1) q = false := by
  cases hc : inSub (2 * b + 1) q with
  | false => rfl
  | true => exact absurd (inSub_sibling hc hq) not_false

theorem inSub_false_of_sibling2 {b q : Nat} (hq : inSub (2 * b + 1) q = true) :
    inSub (2 * b + 2) q = false := by
  cases hc : inSub (2 * b + 2) q with
  | false => rfl
  | true => exact absurd (inSub_sibling hq hc) not_false

theorem ne_of_inSub_child1 {b q : Nat} (hq : inSub (2 * b + 1) q = true) : q ≠ b := by
  rintro rfl
  rw [not_inSub_child1_self] at hq
  exact absurd hq (by simp)

theorem ne_of_inSub_child2 {b q : Nat} (hq : inSub (2 * b + 2) q = true) : q ≠ b := by
  rintro rfl
  rw [not_inSub_child2_self] at hq
  exact absurd hq (by simp)

theorem updateByY_congrOn (t : Tbl) (a b : Nat)
    (xLo xHi yLo yHi qxLo qxHi qyLo qyHi v : Int) (covered : Bool) :
    ∀ tb : Tbl, (∀ q, inSub b q = true → t a q = tb a q) →
      ∀ q, inSub b q = true →
        updateByY t a b xLo xHi yLo yHi qxLo qxHi qyLo qyHi v covered a q
          = updateByY tb a b xLo xHi yLo yHi qxLo qxHi qyLo qyHi v covered a q := by
  induction t, a, b, xLo, xHi, yLo, yHi, qxLo, qxHi, qyLo, qyHi, v, covered
    using updateByY.induct with
  | case1 t a b xLo xHi yLo yHi qxLo qxHi qyLo qyHi v covered hdisj =>
    intro tb hag q hq
    conv_lhs => rw [updateByY]
    conv_rhs => rw [updateByY]
    rw [dif_pos hdisj, dif_pos hdisj]
    exact hag q hq
  | case2 t a b xLo xHi yLo yHi qxLo qxHi qyLo qyHi v hdisj hfull =>
    intro tb hag q hq
    conv_lhs => rw [updateByY]
    conv_rhs => rw [updateByY]
    rw [dif_neg hdisj, dif_neg hdisj, dif_pos hfull, dif_pos hfull, if_pos rfl, if_pos rfl]
    have hb := hag b (inSub_self b)
    by_cases hqb : q = b
    · subst hqb
      simp [setNode, hb]
    · simp only [setNode, hqb, and_false, if_false]
      exact hag q hq
  | case3 t a b xLo xHi yLo yHi qxLo qxHi qyLo qyHi v covered hdisj hfull hcov =>
    intro tb hag q hq
    conv_lhs => rw [updateByY]
    conv_rhs => rw [updateByY]
    rw [dif_neg hdisj, dif_neg hdisj, dif_pos hfull, dif_pos hfull, if_neg hcov, if_neg hcov]
    have hb := hag b (inSub_self b)
    by_cases hqb : q = b
    · subst hqb
      simp [setNode, hb]
    · simp only [setNode, hqb, and_false, if_false]
      exact hag q hq
  | case4 t a b xLo xHi yLo yHi qxLo qxHi qyLo qyHi v covered hdisj hfull ihl ihr =>
    intro tb hag q hq
    conv_lhs => rw [updateByY]
    conv_rhs => rw [updateByY]
    rw [dif_neg hdisj, dif_neg hdisj, dif_neg hfull, dif_neg hfull]
    have hag1 : ∀ q, inSub (2 * b + 1) q = true → t a q = tb a q :=
      fun q hq => hag q (inSub_trans (inSub_child1 b) hq)
    have hag2 : ∀ q, inSub (2 * b + 2) q = true → t a q = tb a q :=
      fun q hq => hag q (inSub_trans (inSub_child2 b) hq)
    -- abbreviations for the two mid-level tables
    set yM := Int.fdiv (yLo + yHi) 2 with hyM
    -- left-child updates agree on the left subtree
    have h1 : ∀ q, inSub (2 * b + 1) q = true →
        updateByY t a (2 * b + 1) xLo xHi yLo yM qxLo qxHi qyLo qyHi v covered a q
          = updateByY tb a (2 * b + 1) xLo xHi yLo yM qxLo qxHi qyLo qyHi v covered a q :=
      ihl tb hag1
    -- right-child updates agree on the right subtree
    have hagr : ∀ q, inSub (2 * b + 2) q = true →
        updateByY t a (2 * b + 1) xLo xHi yLo yM qxLo qxHi qyLo qyHi v covered a q
          = updateByY tb a (2 * b + 1) xLo xHi yLo yM qxLo qxHi qyLo qyHi v covered a q := by
      intro q hq
      rw [updY_frame (Or.inr (inSub_false_of_sibling1 hq)),
        updY_frame (Or.inr (inSub_false_of_sibling1 hq))]
      exact hag2 q hq
    have h2 : ∀ q, inSub (2 * b + 2) q = true →
        updateByY (updateByY t a (2 * b + 1) xLo xHi yLo yM qxLo qxHi qyLo qyHi v covered)
            a (2 * b + 2) xLo xHi (yM + 1) yHi qxLo qxHi qyLo qyHi v covered a q
          = updateByY (updateByY tb a (2 * b + 1) xLo xHi yLo yM qxLo qxHi qyLo qyHi v covered)
              a (2 * b + 2) xLo xHi (yM + 1) yHi qxLo qxHi qyLo qyHi v covered a q :=
      ihr _ hagr
    -- the two fully updated tables agree at b, 2b+1, 2b+2 and on both subtrees
    have hvb : updateByY (updateByY t a (2 * b + 1) xLo xHi yLo yM qxLo qxHi qyLo qyHi v covered)
            a (2 * b + 2) xLo xHi (yM + 1) yHi qxLo qxHi qyLo qyHi v covered a b
          = updateByY (updateByY tb a (2 * b + 1) xLo xHi yLo yM qxLo qxHi qyLo qyHi v covered)
              a (2 * b + 2) xLo xHi (yM + 1) yHi qxLo qxHi qyLo qyHi v covered a b := by
      rw [updY_frame (Or.inr (not_inSub_child2_self b)),
        updY_frame (Or.inr (not_inSub_child2_self b)),
        updY_frame (Or.inr (not_inSub_child1_self b)),
        updY_frame (Or.inr (not_inSub_child1_self b))]
      exact hag b (inSub_self b)
    have hv1 : updateByY (updateByY t a (2 * b + 1) xLo xHi yLo yM qxLo qxHi qyLo qyHi v covered)
            a (2 * b + 2) xLo xHi (yM + 1) yHi qxLo qxHi qyLo qyHi v covered a (2 * b + 1)
          = updateByY (updateByY tb a (2 * b + 1) xLo xHi yLo yM qxLo qxHi qyLo qyHi v covered)
              a (2 * b + 2) xLo xHi (yM + 1) yHi qxLo qxHi qyLo qyHi v covered a (2 * b + 1) := by
      rw [updY_frame (Or.inr (not_inSub_21 b)), updY_frame (Or.inr (not_inSub_21 b))]
      exact h1 _ (inSub_self _)
    have hv2 := h2 _ (inSub_self (2 * b + 2))
    rcases inSub_cases hq with rfl | hq1 | hq2
    · rw [recompute_at, recompute_at, hvb, hv1, hv2]
    · have hqb : ¬(q = b) := ne_of_inSub_child1 hq1
      rw [recompute_other (fun hc => hqb hc.2), recompute_other (fun hc => hqb hc.2),
        updY_frame (Or.inr (inSub_false_of_sibling2 hq1)),
        updY_frame (Or.inr (inSub_false_of_sibling2 hq1))]
      exact h1 q hq1
    · have hqb : ¬(q = b) := ne_of_inSub_child2 hq2
      rw [recompute_other (fun hc => hqb hc.2), recompute_other (fun hc => hqb hc.2)]
      exact h2 q hq2

theorem queryByY_congrOn (t tb : Tbl) (a b : Nat)
    (xLo xHi yLo yHi qxLo qxHi qyLo qyHi : Int)
    (hag : ∀ q, inSub b q = true → t a q = tb a q) :
    queryByY t a b xLo xHi yLo yHi qxLo qxHi qyLo qyHi
      = queryByY tb a b xLo xHi yLo yHi qxLo qxHi qyLo qyHi := by
  induction b, xLo, xHi, yLo, yHi, qxLo, qxHi, qyLo, qyHi using queryByY.induct t a with
  | case1 b xLo xHi yLo yHi qxLo qxHi qyLo qyHi hdisj =>
    conv_lhs => rw [queryByY]
    conv_rhs => rw [queryByY]
    rw [dif_pos hdisj, dif_pos hdisj]
  | case2 b xLo xHi yLo yHi qxLo qxHi qyLo qyHi hdisj hfull hxcov =>
    conv_lhs => rw [queryByY]
    conv_rhs => rw [queryByY]
    rw [dif_neg hdisj, dif_neg hdisj, dif_pos hfull, dif_pos hfull,
      if_pos hxcov, if_pos hxcov, hag b (inSub_self b)]
  | case3 b xLo xHi yLo yHi qxLo qxHi qyLo qyHi hdisj hfull hxcov =>
    conv_lhs => rw [queryByY]
    conv_rhs => rw [queryByY]
    rw [dif_neg hdisj, dif_neg hdisj, dif_pos hfull, dif_pos hfull,
      if_neg hxcov, if_neg hxcov, hag b (inSub_self b)]
  | case4 b xLo xHi yLo yHi qxLo qxHi qyLo qyHi hdisj hfull ihl ihr =>
    conv_lhs => rw [queryByY]
    conv_rhs => rw [queryByY]
    rw [dif_neg hdisj, dif_neg hdisj, dif_neg hfull, dif_neg hfull]
    have hag1 : ∀ q, inSub (2 * b + 1) q = true → t a q = tb a q :=
      fun q hq => hag q (inSub_trans (inSub_child1 b) hq)
    have hag2 : ∀ q, inSub (2 * b + 2) q = true → t a q = tb a q :=
      fun q hq => hag q (inSub_trans (inSub_child2 b) hq)
    rw [ihl hag1, ihr hag2, hag b (inSub_self b)]

theorem updateByX_frame (t : Tbl) (a b : Nat) (m xLo xHi qxLo qxHi qyLo qyHi v : Int)
    (p q : Nat) (h : inSub a p = false) :
    updateByX t a b m xLo xHi qxLo qxHi qyLo qyHi v p q = t p q := by
  induction t, a, b, m, xLo, xHi, qxLo, qxHi, qyLo, qyHi, v using updateByX.induct with
  | case1 t a b m xLo xHi qxLo qxHi qyLo qyHi v hdisj =>
    rw [updateByX, dif_pos hdisj]
  | case2 t a b m xLo xHi qxLo qxHi qyLo qyHi v hdisj hfull =>
    rw [updateByX, dif_neg hdisj, dif_pos hfull]
    refine updY_frame (Or.inl ?_)
    rintro rfl
    rw [inSub_self] at h
    exact absurd h (by simp)
  | case3 t a b m xLo xHi qxLo qxHi qyLo qyHi v hdisj hfull ihl ihr =>
    rw [updateByX, dif_neg hdisj, dif_neg hfull]
    have hpa : p ≠ a := by
      rintro rfl
      rw [inSub_self] at h
      exact absurd h (by simp)
    have h1 : inSub (2 * a + 1) p = false := by
      cases hc : inSub (2 * a + 1) p
      · rfl
      · rw [inSub_trans (inSub_child1 a) hc] at h
        exact absurd h (by simp)
    have h2 : inSub (2 * a + 2) p = false := by
      cases hc : inSub (2 * a + 2) p
      · rfl
      · rw [inSub_trans (inSub_child2 a) hc] at h
        exact absurd h (by simp)
    rw [updY_frame (Or.inl hpa), ihr h2, ihl h1]

/-- Implicit-argument form of `updateByX_frame`. -/
theorem updX_frame {t : Tbl} {a b : Nat} {m xLo xHi qxLo qxHi qyLo qyHi v : Int}
    {p q : Nat} (h : inSub a p = false) :
    updateByX t a b m xLo xHi qxLo qxHi qyLo qyHi v p q = t p q :=
  updateByX_frame t a b m xLo xHi qxLo qxHi qyLo qyHi v p q h

theorem updateByX_congrOn (t : Tbl) (a b : Nat) (m xLo xHi qxLo qxHi qyLo qyHi v : Int) :
    ∀ tb : Tbl, (∀ p q, inSub a p = true → t p q = tb p q) →
      ∀ p q, inSub a p = true →
        updateByX t a b m xLo xHi qxLo qxHi qyLo qyHi v p q
          = updateByX tb a b m xLo xHi qxLo qxHi qyLo qyHi v p q := by
  induction t, a, b, m, xLo, xHi, qxLo, qxHi, qyLo, qyHi, v using updateByX.induct with
  | case1 t a b m xLo xHi qxLo qxHi qyLo qyHi v hdisj =>
    intro tb hag p q hp
    conv_lhs => rw [updateByX]
    conv_rhs => rw [updateByX]
    rw [dif_pos hdisj, dif_pos hdisj]
    exact hag p q hp
  | case2 t a b m xLo xHi qxLo qxHi qyLo qyHi v hdisj hfull =>
    intro tb hag p q hp
    conv_lhs => rw [updateByX]
    conv_rhs => rw [updateByX]
    rw [dif_neg hdisj, dif_neg hdisj, dif_pos hfull, dif_pos hfull]
    by_cases hpa : p = a
    · subst hpa
      by_cases hqb : inSub b q = true
      · exact updateByY_congrOn t p b xLo xHi 0 (m - 1) qxLo qxHi qyLo qyHi v true tb
          (fun q hq => hag p q (inSub_self p)) q hqb
      · rw [updY_frame (Or.inr (by simpa using hqb)),
          updY_frame (Or.inr (by simpa using hqb))]
        exact hag p q hp
    · rw [updY_frame (Or.inl hpa), updY_frame (Or.inl hpa)]
      exact hag p q hp
  | case3 t a b m xLo xHi qxLo qxHi qyLo qyHi v hdisj hfull ihl ihr =>
    intro tb hag p q hp
    conv_lhs => rw [updateByX]
    conv_rhs => rw [updateByX]
    rw [dif_neg hdisj, dif_neg hdisj, dif_neg hfull, dif_neg hfull]
    have hag1 : ∀ p q, inSub (2 * a + 1) p = true → t p q = tb p q :=
      fun p q hp => hag p q (inSub_trans (inSub_child1 a) hp)
    -- first-level (left-child) row updates agree on the whole outer subtree of a
    have hA : ∀ p q, inSub a p = true →
        updateByX t (2 * a + 1) b m xLo (Int.fdiv (xLo + xHi) 2) qxLo qxHi qyLo qyHi v p q
          = updateByX tb (2 * a + 1) b m xLo (Int.fdiv (xLo + xHi) 2) qxLo qxHi qyLo qyHi v p q := by
      intro p q hp
      by_cases hc : inSub (2 * a + 1) p = true
      · exact ihl tb hag1 p q hc
      · rw [updX_frame (by simpa using hc), updX_frame (by simpa using hc)]
        exact hag p q hp
    -- second-level (right-child) row updates agree on the whole outer subtree of a
    have hB : ∀ p q, inSub a p = true →
        updateByX (updateByX t (2 * a + 1) b m xLo (Int.fdiv (xLo + xHi) 2) qxLo qxHi qyLo qyHi v)
            (2 * a + 2) b m (Int.fdiv (xLo + xHi) 2 + 1) xHi qxLo qxHi qyLo qyHi v p q
          = updateByX (updateByX tb (2 * a + 1) b m xLo (Int.fdiv (xLo + xHi) 2) qxLo qxHi qyLo qyHi v)
              (2 * a + 2) b m (Int.fdiv (xLo + xHi) 2 + 1) xHi qxLo qxHi qyLo qyHi v p q := by
      intro p q hp
      by_cases hc : inSub (2 * a + 2) p = true
      · exact ihr _ (fun p q hp2 => hA p q (inSub_trans (inSub_child2 a) hp2)) p q hc
      · conv_lhs => rw [updX_frame (show inSub (2 * a + 2) p = false by simpa using hc)]
        conv_rhs => rw [updX_frame (show inSub (2 * a + 2) p = false by simpa using hc)]
        exact hA p q hp
    by_cases hpa : p = a
    · subst hpa
      by_cases hqb : inSub b q = true
      · exact updateByY_congrOn _ p b xLo xHi 0 (m - 1) qxLo qxHi qyLo qyHi v false _
          (fun q _ => hB p q (inSub_self p)) q hqb
      · rw [updY_frame (Or.inr (by simpa using hqb)),
          updY_frame (Or.inr (by simpa using hqb))]
        exact hB p q hp
    · rw [updY_frame (Or.inl hpa), updY_frame (Or.inl hpa)]
      exact hB p q hp

theorem queryByX_congrOn (t tb : Tbl) (a b : Nat) (m xLo xHi qxLo qxHi qyLo qyHi : Int)
    (hag : ∀ p q, inSub a p = true → t p q = tb p q) :
    queryByX t a b m xLo xHi qxLo qxHi qyLo qyHi
      = queryByX tb a b m xLo xHi qxLo qxHi qyLo qyHi := by
  induction a, b, m, xLo, xHi, qxLo, qxHi, qyLo, qyHi using queryByX.induct t with
  | case1 a b m xLo xHi qxLo qxHi qyLo qyHi hdisj =>
    conv_lhs => rw [queryByX]
    conv_rhs => rw [queryByX]
    rw [dif_pos hdisj, dif_pos hdisj]
  | case2 a b m xLo xHi qxLo qxHi qyLo qyHi hdisj hfull =>
    conv_lhs => rw [queryByX]
    conv_rhs => rw [queryByX]
    rw [dif_neg hdisj, dif_neg hdisj, dif_pos hfull, dif_pos hfull]
    exact queryByY_congrOn t tb a b xLo xHi 0 (m - 1) qxLo qxHi qyLo qyHi
      (fun q _ => hag a q (inSub_self a))
  | case3 a b m xLo xHi qxLo qxHi qyLo qyHi hdisj hfull ihl ihr =>
    conv_lhs => rw [queryByX]
    conv_rhs => rw [queryByX]
    rw [dif_neg hdisj, dif_neg hdisj, dif_neg hfull, dif_neg hfull]
    rw [ihl (fun p q hp => hag p q (inSub_trans (inSub_child1 a) hp)),
      ihr (fun p q hp => hag p q (inSub_trans (inSub_child2 a) hp)),
      queryByY_congrOn t tb a b xLo xHi 0 (m - 1) (max qxLo xLo) (min qxHi xHi) qyLo qyHi
        (fun q _ => hag a q (inSub_self a))]

/-! ### Structural invariant of the inner trees

At every inner node the two exact-sum fields are the sums of the children
fields plus the own pending rate spread over the node height; at leaves the
children entries are never written and stay zero, so the same equations hold
there as well. -/

/-- Interval sizes add over the split `[lo,mid] / [mid+1,hi]` after
intersecting with any interval `[l,h]`. -/
theorem olen_split {lo mid hi l h : Int} (h1 : lo ≤ mid) (h2 : mid < hi) :
    olen (max lo l) (min mid h) + olen (max (mid + 1) l) (min hi h)
      = olen (max lo l) (min hi h) := by
  simp only [olen]
  omega

/-- The consistency equations of `updateByY`, at every node of the inner
subtree rooted at `(a, b)` over the column range `[yLo, yHi]`. -/
def InvY (t : Tbl) (a b : Nat) (yLo yHi : Int) : Prop :=
  ((t a b).partialBoth = (t a (2 * b + 1)).partialBoth + (t a (2 * b + 2)).partialBoth
      + (t a b).partialX * (yHi - yLo + 1)
    ∧ (t a b).partialY = (t a (2 * b + 1)).partialY + (t a (2 * b + 2)).partialY
      + (t a b).fullBoth * (yHi - yLo + 1))
  ∧ (if yLo < yHi then
      InvY t a (2 * b + 1) yLo (Int.fdiv (yLo + yHi) 2)
        ∧ InvY t a (2 * b + 2) (Int.fdiv (yLo + yHi) 2 + 1) yHi
    else True)
termination_by (yHi - yLo).toNat
decreasing_by
  · have := midpoint_bounds (show yLo < yHi by omega)
    omega
  · have := midpoint_bounds (show yLo < yHi by omega)
    omega

theorem InvY_congr (t tb : Tbl) (a : Nat) :
    ∀ (k : Nat) (b : Nat) (yLo yHi : Int), (yHi - yLo).toNat ≤ k →
      (∀ q, inSub b q = true → t a q = tb a q) →
      InvY t a b yLo yHi → InvY tb a b yLo yHi := by
  intro k
  induction k with
  | zero =>
    intro b yLo yHi hk hag h
    rw [InvY] at h ⊢
    rw [if_neg (by omega)] at h ⊢
    refine ⟨?_, trivial⟩
    rw [← hag b (inSub_self b), ← hag _ (inSub_child1 b), ← hag _ (inSub_child2 b)]
    exact h.1
  | succ k ih =>
    intro b yLo yHi hk hag h
    rw [InvY] at h ⊢
    refine ⟨?_, ?_⟩
    · rw [← hag b (inSub_self b), ← hag _ (inSub_child1 b), ← hag _ (inSub_child2 b)]
      exact h.1
    · by_cases hlt : yLo < yHi
      · rw [if_pos hlt] at h ⊢
        have hmid := midpoint_bounds hlt
        constructor
        · exact ih (2 * b + 1) yLo (Int.fdiv (yLo + yHi) 2) (by omega)
            (fun q hq => hag q (inSub_trans (inSub_child1 b) hq)) h.2.1
        · exact ih (2 * b + 2) (Int.fdiv (yLo + yHi) 2 + 1) yHi (by omega)
            (fun q hq => hag q (inSub_trans (inSub_child2 b) hq)) h.2.2
      · rw [if_neg hlt]
        trivial

/-- Convenient form of `InvY_congr` without the explicit fuel. -/
theorem InvY_congrOn {t tb : Tbl} {a b : Nat} {yLo yHi : Int}
    (hag : ∀ q, inSub b q = true → t a q = tb a q) (h : InvY t a b yLo yHi) :
    InvY tb a b yLo yHi :=
  InvY_congr t tb a (yHi - yLo).toNat b yLo yHi le_rfl hag h

theorem InvY_zero (a : Nat) :
    ∀ (k : Nat) (b : Nat) (yLo yHi : Int), (yHi - yLo).toNat ≤ k →
      InvY (fun _ _ => Node.zero) a b yLo yHi := by
  intro k
  induction k with
  | zero =>
    intro b yLo yHi hk
    rw [InvY, if_neg (by omega)]
    exact ⟨by simp [Node.zero], trivial⟩
  | succ k ih =>
    intro b yLo yHi hk
    rw [InvY]
    refine ⟨by simp [Node.zero], ?_⟩
    by_cases hlt : yLo < yHi
    · have hmid := midpoint_bounds hlt
      rw [if_pos hlt]
      exact ⟨ih (2 * b + 1) yLo _ (by omega), ih (2 * b + 2) _ yHi (by omega)⟩
    · rw [if_neg hlt]
      trivial

/-- `updateByY` preserves the inner-tree invariant. -/
theorem InvY_update (t : Tbl) (a b : Nat) (xLo xHi yLo yHi qxLo qxHi qyLo qyHi v : Int)
    (covered : Bool) (h : InvY t a b yLo yHi) :
    InvY (updateByY t a b xLo xHi yLo yHi qxLo qxHi qyLo qyHi v covered) a b yLo yHi := by
  induction t, a, b, xLo, xHi, yLo, yHi, qxLo, qxHi, qyLo, qyHi, v, covered
    using updateByY.induct with
  | case1 t a b xLo xHi yLo yHi qxLo qxHi qyLo qyHi v covered hdisj =>
    rw [updateByY, dif_pos hdisj]
    exact h
  | case2 t a b xLo xHi yLo yHi qxLo qxHi qyLo qyHi v hdisj hfull =>
    rw [updateByY, dif_neg hdisj, dif_pos hfull, if_pos rfl]
    rw [InvY] at h ⊢
    obtain ⟨⟨he1, he2⟩, hrest⟩ := h
    have hne1 : ¬(a = a ∧ 2 * b + 1 = b) := by omega
    have hne2 : ¬(a = a ∧ 2 * b + 2 = b) := by omega
    constructor
    · rw [setNode_same, setNode_other hne1, setNode_other hne2]
      dsimp only
      exact ⟨he1, by rw [he2]; ring⟩
    · by_cases hlt : yLo < yHi
      · rw [if_pos hlt] at hrest ⊢
        constructor
        · exact InvY_congrOn
            (fun q hq => (setNode_other (fun hc => ne_of_inSub_child1 hq hc.2)).symm) hrest.1
        · exact InvY_congrOn
            (fun q hq => (setNode_other (fun hc => ne_of_inSub_child2 hq hc.2)).symm) hrest.2
      · rw [if_neg hlt]
        trivial
  | case3 t a b xLo xHi yLo yHi qxLo qxHi qyLo qyHi v covered hdisj hfull hcov =>
    rw [updateByY, dif_neg hdisj, dif_pos hfull, if_neg hcov]
    rw [InvY] at h ⊢
    obtain ⟨⟨he1, he2⟩, hrest⟩ := h
    have hne1 : ¬(a = a ∧ 2 * b + 1 = b) := by omega
    have hne2 : ¬(a = a ∧ 2 * b + 2 = b) := by omega
    constructor
    · rw [setNode_same, setNode_other hne1, setNode_other hne2]
      dsimp only
      exact ⟨by rw [he1]; ring, he2⟩
    · by_cases hlt : yLo < yHi
      · rw [if_pos hlt] at hrest ⊢
        constructor
        · exact InvY_congrOn
            (fun q hq => (setNode_other (fun hc => ne_of_inSub_child1 hq hc.2)).symm) hrest.1
        · exact InvY_congrOn
            (fun q hq => (setNode_other (fun hc => ne_of_inSub_child2 hq hc.2)).symm) hrest.2
      · rw [if_neg hlt]
        trivial
  | case4 t a b xLo xHi yLo yHi qxLo qxHi qyLo qyHi v covered hdisj hfull ihl ihr =>
    rw [updateByY, dif_neg hdisj, dif_neg hfull]
    have hlt : yLo < yHi := by
      rcases lt_or_le yLo yHi with hc | hc
      · exact hc
      · exact absurd ⟨by omega, by omega⟩ hfull
    rw [InvY] at h
    rw [if_pos hlt] at h
    obtain ⟨⟨he1, he2⟩, hl, hr⟩ := h
    -- the two child invariants after both child updates
    have hl2 : InvY
        (updateByY
          (updateByY t a (2 * b + 1) xLo xHi yLo (Int.fdiv (yLo + yHi) 2) qxLo qxHi qyLo qyHi v covered)
          a (2 * b + 2) xLo xHi (Int.fdiv (yLo + yHi) 2 + 1) yHi qxLo qxHi qyLo qyHi v covered)
        a (2 * b + 1) yLo (Int.fdiv (yLo + yHi) 2) := by
      refine InvY_congrOn (fun q hq => (updY_frame (Or.inr (inSub_false_of_sibling2 hq))).symm)
        (ihl hl)
    have hr2 : InvY
        (updateByY
          (updateByY t a (2 * b + 1) xLo xHi yLo (Int.fdiv (yLo + yHi) 2) qxLo qxHi qyLo qyHi v covered)
          a (2 * b + 2) xLo xHi (Int.fdiv (yLo + yHi) 2 + 1) yHi qxLo qxHi qyLo qyHi v covered)
        a (2 * b + 2) (Int.fdiv (yLo + yHi) 2 + 1) yHi := by
      refine ihr ?_
      refine InvY_congrOn (fun q hq => (updY_frame (Or.inr (inSub_false_of_sibling1 hq))).symm) hr
    rw [InvY, if_pos hlt]
    have hne1 : ¬(a = a ∧ 2 * b + 1 = b) := by omega
    have hne2 : ¬(a = a ∧ 2 * b + 2 = b) := by omega
    refine ⟨?_, ?_, ?_⟩
    · rw [recompute_at, recompute_other hne1, recompute_other hne2]
      dsimp only
      exact ⟨rfl, rfl⟩
    · exact InvY_congrOn
        (fun q hq => (recompute_other (fun hc => ne_of_inSub_child1 hq hc.2)).symm) hl2
    · exact InvY_congrOn
        (fun q hq => (recompute_other (fun hc => ne_of_inSub_child2 hq hc.2)).symm) hr2

/-- Effect of one inner update on the two exact-sum fields of the subtree
root `(a, b)`: `partialY` grows by the value times the covered column count
when `covered`, `partialBoth` by value times row-overlap width times covered
column count otherwise. -/
theorem updateByY_root_delta (t : Tbl) (a b : Nat)
    (xLo xHi yLo yHi qxLo qxHi qyLo qyHi v : Int) (covered : Bool) :
    yLo ≤ yHi → InvY t a b yLo yHi →
      ((updateByY t a b xLo xHi yLo yHi qxLo qxHi qyLo qyHi v covered) a b).partialY
          = (t a b).partialY
            + (if covered then v * olen (max yLo qyLo) (min yHi qyHi) else 0)
        ∧ ((updateByY t a b xLo xHi yLo yHi qxLo qxHi qyLo qyHi v covered) a b).partialBoth
          = (t a b).partialBoth
            + (if covered then 0
               else v * (min qxHi xHi - max qxLo xLo + 1)
                 * olen (max yLo qyLo) (min yHi qyHi)) := by
  induction t, a, b, xLo, xHi, yLo, yHi, qxLo, qxHi, qyLo, qyHi, v, covered
    using updateByY.induct with
  | case1 t a b xLo xHi yLo yHi qxLo qxHi qyLo qyHi v covered hdisj =>
    intro hy hinv
    rw [updateByY, dif_pos hdisj]
    have holen : olen (max yLo qyLo) (min yHi qyHi) = 0 := by
      simp only [olen]; omega
    rw [holen]
    constructor <;> (split_ifs <;> ring)
  | case2 t a b xLo xHi yLo yHi qxLo qxHi qyLo qyHi v hdisj hfull =>
    intro hy hinv
    rw [updateByY, dif_neg hdisj, dif_pos hfull, if_pos rfl, setNode_same]
    have holen : olen (max yLo qyLo) (min yHi qyHi) = yHi - yLo + 1 := by
      simp only [olen]; omega
    rw [holen]
    dsimp only
    constructor
    · rw [if_pos rfl]
    · rw [if_pos rfl]; ring
  | case3 t a b xLo xHi yLo yHi qxLo qxHi qyLo qyHi v covered hdisj hfull hcov =>
    intro hy hinv
    rw [updateByY, dif_neg hdisj, dif_pos hfull, if_neg hcov, setNode_same]
    have holen : olen (max yLo qyLo) (min yHi qyHi) = yHi - yLo + 1 := by
      simp only [olen]; omega
    rw [holen]
    dsimp only
    constructor
    · rw [if_neg hcov]; ring
    · rw [if_neg hcov]
  | case4 t a b xLo xHi yLo yHi qxLo qxHi qyLo qyHi v covered hdisj hfull ihl ihr =>
    intro hy hinv
    rw [updateByY, dif_neg hdisj, dif_neg hfull]
    have hlt : yLo < yHi := by
      rcases lt_or_le yLo yHi with hc | hc
      · exact hc
      · exact absurd ⟨by omega, by omega⟩ hfull
    have hmid := midpoint_bounds hlt
    rw [InvY, if_pos hlt] at hinv
    obtain ⟨⟨he1, he2⟩, hl, hr⟩ := hinv
    have hinv1 : InvY
        (updateByY t a (2 * b + 1) xLo xHi yLo (Int.fdiv (yLo + yHi) 2) qxLo qxHi qyLo qyHi v covered)
        a (2 * b + 2) (Int.fdiv (yLo + yHi) 2 + 1) yHi :=
      InvY_congrOn (fun q hq => (updY_frame (Or.inr (inSub_false_of_sibling1 hq))).symm) hr
    have hIHl := ihl (by omega) hl
    have hIHr := ihr (by omega) hinv1
    -- frame facts
    have hA : updateByY
        (updateByY t a (2 * b + 1) xLo xHi yLo (Int.fdiv (yLo + yHi) 2) qxLo qxHi qyLo qyHi v covered)
        a (2 * b + 2) xLo xHi (Int.fdiv (yLo + yHi) 2 + 1) yHi qxLo qxHi qyLo qyHi v covered
          a (2 * b + 1)
        = updateByY t a (2 * b + 1) xLo xHi yLo (Int.fdiv (yLo + yHi) 2) qxLo qxHi qyLo qyHi v covered
            a (2 * b + 1) :=
      updY_frame (Or.inr (not_inSub_21 b))
    have hB : updateByY t a (2 * b + 1) xLo xHi yLo (Int.fdiv (yLo + yHi) 2) qxLo qxHi qyLo qyHi v covered
          a (2 * b + 2)
        = t a (2 * b + 2) :=
      updY_frame (Or.inr (not_inSub_12 b))
    have hC : updateByY
        (updateByY t a (2 * b + 1) xLo xHi yLo (Int.fdiv (yLo + yHi) 2) qxLo qxHi qyLo qyHi v covered)
        a (2 * b + 2) xLo xHi (Int.fdiv (yLo + yHi) 2 + 1) yHi qxLo qxHi qyLo qyHi v covered a b
        = t a b := by
      rw [updY_frame (Or.inr (not_inSub_child2_self b)),
        updY_frame (Or.inr (not_inSub_child1_self b))]
    have hsplit := @olen_split yLo (Int.fdiv (yLo + yHi) 2) yHi qyLo qyHi hmid.1 hmid.2
    rw [recompute_at]
    dsimp only
    rw [hA, hIHl.1, hIHl.2, hIHr.1, hIHr.2, hB, hC, he1, he2, ← hsplit]
    cases covered with
    | true =>
      rw [if_pos rfl, if_pos rfl, if_pos rfl, if_pos rfl, if_pos rfl, if_pos rfl]
      constructor <;> ring
    | false =>
      have hf : ¬(false = true) := by simp
      rw [if_neg hf, if_neg hf, if_neg hf, if_neg hf, if_neg hf, if_neg hf]
      constructor <;> ring

/-- One inner update changes the pending-rate fields of the subtree root
`(a, b)` only in the terminal fully-covered-in-columns branch. -/
theorem updateByY_root_rates (t : Tbl) (a b : Nat)
    (xLo xHi yLo yHi qxLo qxHi qyLo qyHi v : Int) (covered : Bool) :
    ((updateByY t a b xLo xHi yLo yHi qxLo qxHi qyLo qyHi v covered) a b).fullBoth
        = (t a b).fullBoth
          + (if ¬(qyHi < yLo ∨ yHi < qyLo) ∧ (qyLo ≤ yLo ∧ yHi ≤ qyHi) ∧ covered = true
             then v else 0)
      ∧ ((updateByY t a b xLo xHi yLo yHi qxLo qxHi qyLo qyHi v covered) a b).partialX
        = (t a b).partialX
          + (if ¬(qyHi < yLo ∨ yHi < qyLo) ∧ (qyLo ≤ yLo ∧ yHi ≤ qyHi) ∧ covered = false
             then v * (min qxHi xHi - max qxLo xLo + 1) else 0) := by
  by_cases hdisj : qyHi < yLo ∨ yHi < qyLo
  · rw [updateByY, dif_pos hdisj, if_neg (by tauto), if_neg (by tauto)]
    constructor <;> ring
  · by_cases hfull : qyLo ≤ yLo ∧ yHi ≤ qyHi
    · cases covered with
      | true =>
        rw [updateByY, dif_neg hdisj, dif_pos hfull, if_pos rfl, setNode_same]
        dsimp only
        rw [if_pos ⟨hdisj, hfull, rfl⟩, if_neg (by simp)]
        constructor <;> ring
      | false =>
        rw [updateByY, dif_neg hdisj, dif_pos hfull, if_neg (by simp), setNode_same]
        dsimp only
        rw [if_neg (by simp), if_pos ⟨hdisj, hfull, rfl⟩]
        constructor <;> ring
    · rw [updateByY, dif_neg hdisj, dif_neg hfull, recompute_at]
      dsimp only
      rw [updY_frame (Or.inr (not_inSub_child2_self b)),
        updY_frame (Or.inr (not_inSub_child1_self b)),
        if_neg (by tauto), if_neg (by tauto)]
      constructor <;> ring

/-- The invariant over the outer (row) tree: every outer node of the subtree
rooted at `a` carries a consistent inner tree over the columns `[0, m-1]`. -/
def InvX (t : Tbl) (a b : Nat) (m xLo xHi : Int) : Prop :=
  InvY t a b 0 (m - 1)
  ∧ (if xLo < xHi then
      InvX t (2 * a + 1) b m xLo (Int.fdiv (xLo + xHi) 2)
        ∧ InvX t (2 * a + 2) b m (Int.fdiv (xLo + xHi) 2 + 1) xHi
    else True)
termination_by (xHi - xLo).toNat
decreasing_by
  · have := midpoint_bounds (show xLo < xHi by omega)
    omega
  · have := midpoint_bounds (show xLo < xHi by omega)
    omega

theorem InvX_congr (t tb : Tbl) (b : Nat) (m : Int) :
    ∀ (k : Nat) (a : Nat) (xLo xHi : Int), (xHi - xLo).toNat ≤ k →
      (∀ p q, inSub a p = true → t p q = tb p q) →
      InvX t a b m xLo xHi → InvX tb a b m xLo xHi := by
  intro k
  induction k with
  | zero =>
    intro a xLo xHi hk hag h
    rw [InvX] at h ⊢
    rw [if_neg (by omega)] at h ⊢
    exact ⟨InvY_congrOn (fun q _ => hag a q (inSub_self a)) h.1, trivial⟩
  | succ k ih =>
    intro a xLo xHi hk hag h
    rw [InvX] at h ⊢
    refine ⟨InvY_congrOn (fun q _ => hag a q (inSub_self a)) h.1, ?_⟩
    by_cases hlt : xLo < xHi
    · rw [if_pos hlt] at h ⊢
      have hmid := midpoint_bounds hlt
      constructor
      · exact ih (2 * a + 1) xLo (Int.fdiv (xLo + xHi) 2) (by omega)
          (fun p q hp => hag p q (inSub_trans (inSub_child1 a) hp)) h.2.1
      · exact ih (2 * a + 2) (Int.fdiv (xLo + xHi) 2 + 1) xHi (by omega)
          (fun p q hp => hag p q (inSub_trans (inSub_child2 a) hp)) h.2.2
    · rw [if_neg hlt]
      trivial

/-- Convenient form of `InvX_congr`. -/
theorem InvX_congrOn {t tb : Tbl} {a b : Nat} {m xLo xHi : Int}
    (hag : ∀ p q, inSub a p = true → t p q = tb p q) (h : InvX t a b m xLo xHi) :
    InvX tb a b m xLo xHi :=
  InvX_congr t tb b m (xHi - xLo).toNat a xLo xHi le_rfl hag h

theorem InvX_zero (b : Nat) (m : Int) :
    ∀ (k : Nat) (a : Nat) (xLo xHi : Int), (xHi - xLo).toNat ≤ k →
      InvX (fun _ _ => Node.zero) a b m xLo xHi := by
  intro k
  induction k with
  | zero =>
    intro a xLo xHi hk
    rw [InvX, if_neg (by omega)]
    exact ⟨InvY_zero a (m - 1 - 0).toNat b 0 (m - 1) le_rfl, trivial⟩
  | succ k ih =>
    intro a xLo xHi hk
    rw [InvX]
    refine ⟨InvY_zero a (m - 1 - 0).toNat b 0 (m - 1) le_rfl, ?_⟩
    by_cases hlt : xLo < xHi
    · have hmid := midpoint_bounds hlt
      rw [if_pos hlt]
      exact ⟨ih (2 * a + 1) xLo _ (by omega), ih (2 * a + 2) _ xHi (by omega)⟩
    · rw [if_neg hlt]
      trivial

theorem ne_a_of_inSub_child1 {a p : Nat} (hp : inSub (2 * a + 1) p = true) : p ≠ a := by
  rintro rfl
  rw [not_inSub_child1_self] at hp
  exact absurd hp (by simp)

theorem ne_a_of_inSub_child2 {a p : Nat} (hp : inSub (2 * a + 2) p = true) : p ≠ a := by
  rintro rfl
  rw [not_inSub_child2_self] at hp
  exact absurd hp (by simp)

/-- `updateByX` preserves the outer-tree invariant. -/
theorem InvX_update (t : Tbl) (a b : Nat) (m xLo xHi qxLo qxHi qyLo qyHi v : Int)
    (h : InvX t a b m xLo xHi) :
    InvX (updateByX t a b m xLo xHi qxLo qxHi qyLo qyHi v) a b m xLo xHi := by
  induction t, a, b, m, xLo, xHi, qxLo, qxHi, qyLo, qyHi, v using updateByX.induct with
  | case1 t a b m xLo xHi qxLo qxHi qyLo qyHi v hdisj =>
    rw [updateByX, dif_pos hdisj]
    exact h
  | case2 t a b m xLo xHi qxLo qxHi qyLo qyHi v hdisj hfull =>
    rw [updateByX, dif_neg hdisj, dif_pos hfull]
    rw [InvX] at h ⊢
    refine ⟨InvY_update t a b xLo xHi 0 (m - 1) qxLo qxHi qyLo qyHi v true h.1, ?_⟩
    by_cases hlt : xLo < xHi
    · rw [if_pos hlt] at h ⊢
      obtain ⟨_, hl, hr⟩ := h
      constructor
      · exact InvX_congrOn
          (fun p q hp => (updY_frame (Or.inl (ne_a_of_inSub_child1 hp))).symm) hl
      · exact InvX_congrOn
          (fun p q hp => (updY_frame (Or.inl (ne_a_of_inSub_child2 hp))).symm) hr
    · rw [if_neg hlt]
      trivial
  | case3 t a b m xLo xHi qxLo qxHi qyLo qyHi v hdisj hfull ihl ihr =>
    rw [updateByX, dif_neg hdisj, dif_neg hfull]
    have hlt : xLo < xHi := by
      rcases lt_or_le xLo xHi with hc | hc
      · exact hc
      · exact absurd ⟨by omega, by omega⟩ hfull
    rw [InvX, if_pos hlt] at h
    obtain ⟨hroot, hl, hr⟩ := h
    -- invariants of the two outer children after both child updates
    have hl2 : InvX
        (updateByX
          (updateByX t (2 * a + 1) b m xLo (Int.fdiv (xLo + xHi) 2) qxLo qxHi qyLo qyHi v)
          (2 * a + 2) b m (Int.fdiv (xLo + xHi) 2 + 1) xHi qxLo qxHi qyLo qyHi v)
        (2 * a + 1) b m xLo (Int.fdiv (xLo + xHi) 2) :=
      InvX_congrOn
        (fun p q hp => (updX_frame (inSub_false_of_sibling2 hp)).symm) (ihl hl)
    have hr2 : InvX
        (updateByX
          (updateByX t (2 * a + 1) b m xLo (Int.fdiv (xLo + xHi) 2) qxLo qxHi qyLo qyHi v)
          (2 * a + 2) b m (Int.fdiv (xLo + xHi) 2 + 1) xHi qxLo qxHi qyLo qyHi v)
        (2 * a + 2) b m (Int.fdiv (xLo + xHi) 2 + 1) xHi := by
      refine ihr ?_
      exact InvX_congrOn
        (fun p q hp => (updX_frame (inSub_false_of_sibling1 hp)).symm) hr
    -- the row-a inner tree is untouched by the two child updates
    have hroot2 : InvY
        (updateByX
          (updateByX t (2 * a + 1) b m xLo (Int.fdiv (xLo + xHi) 2) qxLo qxHi qyLo qyHi v)
          (2 * a + 2) b m (Int.fdiv (xLo + xHi) 2 + 1) xHi qxLo qxHi qyLo qyHi v)
        a b 0 (m - 1) := by
      refine InvY_congrOn (fun q hq => ?_) hroot
      rw [updX_frame (not_inSub_child2_self a), updX_frame (not_inSub_child1_self a)]
    rw [InvX, if_pos hlt]
    refine ⟨InvY_update _ a b xLo xHi 0 (m - 1) qxLo qxHi qyLo qyHi v false hroot2, ?_, ?_⟩
    · exact InvX_congrOn
        (fun p q hp => (updY_frame (Or.inl (ne_a_of_inSub_child1 hp))).symm) hl2
    · exact InvX_congrOn
        (fun p q hp => (updY_frame (Or.inl (ne_a_of_inSub_child2 hp))).symm) hr2

/-! ### Queries on the all-zero table -/

theorem queryByY_zeroTbl (a b : Nat) (xLo xHi yLo yHi qxLo qxHi qyLo qyHi : Int) :
    queryByY (fun _ _ => Node.zero) a b xLo xHi yLo yHi qxLo qxHi qyLo qyHi = 0 := by
  induction b, xLo, xHi, yLo, yHi, qxLo, qxHi, qyLo, qyHi
    using queryByY.induct (fun _ _ => Node.zero) a with
  | case1 b xLo xHi yLo yHi qxLo qxHi qyLo qyHi hdisj =>
    rw [queryByY, dif_pos hdisj]
  | case2 b xLo xHi yLo yHi qxLo qxHi qyLo qyHi hdisj hfull hxcov =>
    rw [queryByY, dif_neg hdisj, dif_pos hfull, if_pos hxcov]
    dsimp only [Node.zero]
    ring
  | case3 b xLo xHi yLo yHi qxLo qxHi qyLo qyHi hdisj hfull hxcov =>
    rw [queryByY, dif_neg hdisj, dif_pos hfull, if_neg hxcov]
    dsimp only [Node.zero]
    ring
  | case4 b xLo xHi yLo yHi qxLo qxHi qyLo qyHi hdisj hfull ihl ihr =>
    rw [queryByY, dif_neg hdisj, dif_neg hfull, ihl, ihr]
    dsimp only [Node.zero]
    split_ifs <;> ring

theorem queryByX_zeroTbl (a b : Nat) (m xLo xHi qxLo qxHi qyLo qyHi : Int) :
    queryByX (fun _ _ => Node.zero) a b m xLo xHi qxLo qxHi qyLo qyHi = 0 := by
  induction a, b, m, xLo, xHi, qxLo, qxHi, qyLo, qyHi
    using queryByX.induct (fun _ _ => Node.zero) with
  | case1 a b m xLo xHi qxLo qxHi qyLo qyHi hdisj =>
    rw [queryByX, dif_pos hdisj]
  | case2 a b m xLo xHi qxLo qxHi qyLo qyHi hdisj hfull =>
    rw [queryByX, dif_neg hdisj, dif_pos hfull]
    exact queryByY_zeroTbl a b xLo xHi 0 (m - 1) qxLo qxHi qyLo qyHi
  | case3 a b m xLo xHi qxLo qxHi qyLo qyHi hdisj hfull ihl ihr =>
    rw [queryByX, dif_neg hdisj, dif_neg hfull, ihl, ihr,
      queryByY_zeroTbl a b xLo xHi 0 (m - 1) (max qxLo xLo) (min qxHi xHi) qyLo qyHi]
    ring

/-! ### Interaction of one inner update with one inner query -/

/-- How one inner update changes one inner query at the same outer node.
The update descends with the update rectangle `[uxLo,uxHi] x [uyLo,uyHi]`;
the query descends with `[qxLo,qxHi] x [qyLo,qyHi]`, where its row range is
either the full node row range or a subrange of `[xLo,xHi]` (as produced by
`queryByX`).  The query result grows by the value times the row factor of the
current mode times the number of columns in the triple overlap. -/
theorem queryByY_update (t : Tbl) (a : Nat) (uxLo uxHi uyLo uyHi v : Int) (covered : Bool)
    (b : Nat) (xLo xHi yLo yHi qxLo qxHi qyLo qyHi : Int) :
    yLo ≤ yHi → qyLo ≤ qyHi →
    (xLo ≤ qxLo ∧ qxHi ≤ xHi ∨ qxLo ≤ xLo ∧ xHi ≤ qxHi) →
    InvY t a b yLo yHi →
    queryByY (updateByY t a b xLo xHi yLo yHi uxLo uxHi uyLo uyHi v covered)
        a b xLo xHi yLo yHi qxLo qxHi qyLo qyHi
      = queryByY t a b xLo xHi yLo yHi qxLo qxHi qyLo qyHi
        + (if covered
            then v * (if qxLo ≤ xLo ∧ xHi ≤ qxHi then xHi - xLo + 1 else qxHi - qxLo + 1)
            else if qxLo ≤ xLo ∧ xHi ≤ qxHi
              then v * (min uxHi xHi - max uxLo xLo + 1) else 0)
          * olen (max yLo (max uyLo qyLo)) (min yHi (min uyHi qyHi)) := by
  induction b, xLo, xHi, yLo, yHi, qxLo, qxHi, qyLo, qyHi using queryByY.induct t a with
  | case1 b xLo xHi yLo yHi qxLo qxHi qyLo qyHi hdisj =>
    intro hy hqy hqx hinv
    have holen : olen (max yLo (max uyLo qyLo)) (min yHi (min uyHi qyHi)) = 0 := by
      simp only [olen]; omega
    conv_lhs => rw [queryByY]
    conv_rhs => rw [queryByY]
    rw [dif_pos hdisj, dif_pos hdisj, holen]
    ring
  | case2 b xLo xHi yLo yHi qxLo qxHi qyLo qyHi hdisj hfull hxcov =>
    intro hy hqy hqx hinv
    obtain ⟨hU1, hU2⟩ :=
      updateByY_root_delta t a b xLo xHi yLo yHi uxLo uxHi uyLo uyHi v covered hy hinv
    have holen : olen (max yLo (max uyLo qyLo)) (min yHi (min uyHi qyHi))
        = olen (max yLo uyLo) (min yHi uyHi) := by
      simp only [olen]; omega
    conv_lhs => rw [queryByY]
    conv_rhs => rw [queryByY]
    rw [dif_neg hdisj, dif_neg hdisj, dif_pos hfull, dif_pos hfull,
      if_pos hxcov, if_pos hxcov, hU1, hU2, holen]
    cases covered with
    | true =>
      rw [if_pos rfl, if_pos rfl, if_pos rfl, if_pos hxcov]
      ring
    | false =>
      rw [if_neg (by simp), if_neg (by simp), if_neg (by simp), if_pos hxcov]
      ring
  | case3 b xLo xHi yLo yHi qxLo qxHi qyLo qyHi hdisj hfull hxcov =>
    intro hy hqy hqx hinv
    obtain ⟨hU1, hU2⟩ :=
      updateByY_root_delta t a b xLo xHi yLo yHi uxLo uxHi uyLo uyHi v covered hy hinv
    have holen : olen (max yLo (max uyLo qyLo)) (min yHi (min uyHi qyHi))
        = olen (max yLo uyLo) (min yHi uyHi) := by
      simp only [olen]; omega
    conv_lhs => rw [queryByY]
    conv_rhs => rw [queryByY]
    rw [dif_neg hdisj, dif_neg hdisj, dif_pos hfull, dif_pos hfull,
      if_neg hxcov, if_neg hxcov, hU1, holen]
    cases covered with
    | true =>
      rw [if_pos rfl, if_pos rfl, if_neg hxcov]
      ring
    | false =>
      rw [if_neg (by simp), if_neg (by simp), if_neg hxcov]
      ring
  | case4 b xLo xHi yLo yHi qxLo qxHi qyLo qyHi hdisj hfull ihl ihr =>
    intro hy hqy hqx hinv
    have hlt : yLo < yHi := by
      rcases lt_or_le yLo yHi with hc | hc
      · exact hc
      · exact absurd ⟨by omega, by omega⟩ hfull
    have hmid := midpoint_bounds hlt
    rw [InvY, if_pos hlt] at hinv
    obtain ⟨⟨he1, he2⟩, hl, hr⟩ := hinv
    by_cases hud : uyHi < yLo ∨ yHi < uyLo
    · -- the update is column-disjoint from this subtree: nothing changes
      rw [updateByY, dif_pos hud]
      have holen : olen (max yLo (max uyLo qyLo)) (min yHi (min uyHi qyHi)) = 0 := by
        simp only [olen]; omega
      rw [holen]
      ring
    · by_cases huf : uyLo ≤ yLo ∧ yHi ≤ uyHi
      · -- terminal deposit at (a, b): only this node record changes
        have htyolen : olen (max yLo (max uyLo qyLo)) (min yHi (min uyHi qyHi))
            = min yHi qyHi - max yLo qyLo + 1 := by
          simp only [olen]; omega
        cases covered with
        | true =>
          have hupd : updateByY t a b xLo xHi yLo yHi uxLo uxHi uyLo uyHi v true
              = setNode t a b { t a b with
                  fullBoth := (t a b).fullBoth + v,
                  partialY := (t a b).partialY + v * (yHi - yLo + 1) } := by
            rw [updateByY, dif_neg hud, dif_pos huf, if_pos rfl]
          have hql : queryByY (updateByY t a b xLo xHi yLo yHi uxLo uxHi uyLo uyHi v true)
                a (2 * b + 1) xLo xHi yLo (Int.fdiv (yLo + yHi) 2) qxLo qxHi qyLo qyHi
              = queryByY t a (2 * b + 1) xLo xHi yLo (Int.fdiv (yLo + yHi) 2)
                  qxLo qxHi qyLo qyHi := by
            rw [hupd]
            exact queryByY_congrOn _ t a (2 * b + 1) xLo xHi yLo (Int.fdiv (yLo + yHi) 2)
              qxLo qxHi qyLo qyHi
              (fun q hq => setNode_other (fun hc => ne_of_inSub_child1 hq hc.2))
          have hqr : queryByY (updateByY t a b xLo xHi yLo yHi uxLo uxHi uyLo uyHi v true)
                a (2 * b + 2) xLo xHi (Int.fdiv (yLo + yHi) 2 + 1) yHi qxLo qxHi qyLo qyHi
              = queryByY t a (2 * b + 2) xLo xHi (Int.fdiv (yLo + yHi) 2 + 1) yHi
                  qxLo qxHi qyLo qyHi := by
            rw [hupd]
            exact queryByY_congrOn _ t a (2 * b + 2) xLo xHi (Int.fdiv (yLo + yHi) 2 + 1) yHi
              qxLo qxHi qyLo qyHi
              (fun q hq => setNode_other (fun hc => ne_of_inSub_child2 hq hc.2))
          conv_lhs => rw [queryByY]
          conv_rhs => rw [queryByY]
          rw [dif_neg hdisj, dif_neg hdisj, dif_neg hfull, dif_neg hfull, hql, hqr,
            hupd, setNode_same]
          dsimp only
          rw [if_pos rfl, htyolen]
          by_cases hxcov : qxLo ≤ xLo ∧ xHi ≤ qxHi
          · have hwtx : min xHi qxHi - max xLo qxLo + 1 = xHi - xLo + 1 := by omega
            rw [if_pos hxcov, if_pos hxcov, hwtx]
            ring
          · have hwtx : min xHi qxHi - max xLo qxLo + 1 = qxHi - qxLo + 1 := by
              rcases hqx with hc | hc
              · omega
              · exact absurd hc hxcov
            rw [if_neg hxcov, if_neg hxcov, hwtx]
            ring
        | false =>
          have hupd : updateByY t a b xLo xHi yLo yHi uxLo uxHi uyLo uyHi v false
              = setNode t a b { t a b with
                  partialX := (t a b).partialX + v * (min uxHi xHi - max uxLo xLo + 1),
                  partialBoth := (t a b).partialBoth
                    + v * (min uxHi xHi - max uxLo xLo + 1) * (yHi - yLo + 1) } := by
            rw [updateByY, dif_neg hud, dif_pos huf, if_neg (by simp)]
          have hql : queryByY (updateByY t a b xLo xHi yLo yHi uxLo uxHi uyLo uyHi v false)
                a (2 * b + 1) xLo xHi yLo (Int.fdiv (yLo + yHi) 2) qxLo qxHi qyLo qyHi
              = queryByY t a (2 * b + 1) xLo xHi yLo (Int.fdiv (yLo + yHi) 2)
                  qxLo qxHi qyLo qyHi := by
            rw [hupd]
            exact queryByY_congrOn _ t a (2 * b + 1) xLo xHi yLo (Int.fdiv (yLo + yHi) 2)
              qxLo qxHi qyLo qyHi
              (fun q hq => setNode_other (fun hc => ne_of_inSub_child1 hq hc.2))
          have hqr : queryByY (updateByY t a b xLo xHi yLo yHi uxLo uxHi uyLo uyHi v false)
                a (2 * b + 2) xLo xHi (Int.fdiv (yLo + yHi) 2 + 1) yHi qxLo qxHi qyLo qyHi
              = queryByY t a (2 * b + 2) xLo xHi (Int.fdiv (yLo + yHi) 2 + 1) yHi
                  qxLo qxHi qyLo qyHi := by
            rw [hupd]
            exact queryByY_congrOn _ t a (2 * b + 2) xLo xHi (Int.fdiv (yLo + yHi) 2 + 1) yHi
              qxLo qxHi qyLo qyHi
              (fun q hq => setNode_other (fun hc => ne_of_inSub_child2 hq hc.2))
          conv_lhs => rw [queryByY]
          conv_rhs => rw [queryByY]
          rw [dif_neg hdisj, dif_neg hdisj, dif_neg hfull, dif_neg hfull, hql, hqr,
            hupd, setNode_same]
          dsimp only
          rw [if_neg (show ¬(false = true) by simp), htyolen]
          by_cases hxcov : qxLo ≤ xLo ∧ xHi ≤ qxHi
          · rw [if_pos hxcov, if_pos hxcov, if_pos hxcov]
            ring
          · rw [if_neg hxcov, if_neg hxcov, if_neg hxcov]
            ring
      · -- both descents split this node: recurse on the two children
        have hy1 : yLo ≤ Int.fdiv (yLo + yHi) 2 := hmid.1
        have hy2 : Int.fdiv (yLo + yHi) 2 + 1 ≤ yHi := by omega
        have hupd : updateByY t a b xLo xHi yLo yHi uxLo uxHi uyLo uyHi v covered
            = recompute
                (updateByY
                  (updateByY t a (2 * b + 1) xLo xHi yLo (Int.fdiv (yLo + yHi) 2)
                    uxLo uxHi uyLo uyHi v covered)
                  a (2 * b + 2) xLo xHi (Int.fdiv (yLo + yHi) 2 + 1) yHi
                  uxLo uxHi uyLo uyHi v covered)
                a b yLo yHi := by
          rw [updateByY, dif_neg hud, dif_neg huf]
        -- left query: drop the recompute and the right update, then recurse
        have hql : queryByY (updateByY t a b xLo xHi yLo yHi uxLo uxHi uyLo uyHi v covered)
              a (2 * b + 1) xLo xHi yLo (Int.fdiv (yLo + yHi) 2) qxLo qxHi qyLo qyHi
            = queryByY t a (2 * b + 1) xLo xHi yLo (Int.fdiv (yLo + yHi) 2) qxLo qxHi qyLo qyHi
              + (if covered
                  then v * (if qxLo ≤ xLo ∧ xHi ≤ qxHi then xHi - xLo + 1 else qxHi - qxLo + 1)
                  else if qxLo ≤ xLo ∧ xHi ≤ qxHi
                    then v * (min uxHi xHi - max uxLo xLo + 1) else 0)
                * olen (max yLo (max uyLo qyLo))
                    (min (Int.fdiv (yLo + yHi) 2) (min uyHi qyHi)) := by
          rw [hupd]
          rw [queryByY_congrOn _
            (updateByY t a (2 * b + 1) xLo xHi yLo (Int.fdiv (yLo + yHi) 2)
              uxLo uxHi uyLo uyHi v covered)
            a (2 * b + 1) xLo xHi yLo (Int.fdiv (yLo + yHi) 2) qxLo qxHi qyLo qyHi
            (fun q hq => by
              rw [recompute_other (fun hc => ne_of_inSub_child1 hq hc.2),
                updY_frame (Or.inr (inSub_false_of_sibling2 hq))])]
          exact ihl hy1 hqy hqx hl
        -- right query: drop the recompute, exchange the base below the right
        -- update for t, then recurse
        have hqr : queryByY (updateByY t a b xLo xHi yLo yHi uxLo uxHi uyLo uyHi v covered)
              a (2 * b + 2) xLo xHi (Int.fdiv (yLo + yHi) 2 + 1) yHi qxLo qxHi qyLo qyHi
            = queryByY t a (2 * b + 2) xLo xHi (Int.fdiv (yLo + yHi) 2 + 1) yHi
                qxLo qxHi qyLo qyHi
              + (if covered
                  then v * (if qxLo ≤ xLo ∧ xHi ≤ qxHi then xHi - xLo + 1 else qxHi - qxLo + 1)
                  else if qxLo ≤ xLo ∧ xHi ≤ qxHi
                    then v * (min uxHi xHi - max uxLo xLo + 1) else 0)
                * olen (max (Int.fdiv (yLo + yHi) 2 + 1) (max uyLo qyLo))
                    (min yHi (min uyHi qyHi)) := by
          rw [hupd]
          rw [queryByY_congrOn _
            (updateByY t a (2 * b + 2) xLo xHi (Int.fdiv (yLo + yHi) 2 + 1) yHi
              uxLo uxHi uyLo uyHi v covered)
            a (2 * b + 2) xLo xHi (Int.fdiv (yLo + yHi) 2 + 1) yHi qxLo qxHi qyLo qyHi
            (fun q hq => by
              rw [recompute_other (fun hc => ne_of_inSub_child2 hq hc.2)]
              exact updateByY_congrOn
                (updateByY t a (2 * b + 1) xLo xHi yLo (Int.fdiv (yLo + yHi) 2)
                  uxLo uxHi uyLo uyHi v covered)
                a (2 * b + 2) xLo xHi (Int.fdiv (yLo + yHi) 2 + 1) yHi
                uxLo uxHi uyLo uyHi v covered t
                (fun q hq => updY_frame (Or.inr (inSub_false_of_sibling1 hq))) q hq)]
          exact ihr hy2 hqy hqx hr
        -- the pending rates at (a, b) are untouched
        have hfb : (updateByY t a b xLo xHi yLo yHi uxLo uxHi uyLo uyHi v covered a b).fullBoth
            = (t a b).fullBoth := by
          rw [hupd, recompute_at]
          dsimp only
          rw [updY_frame (Or.inr (not_inSub_child2_self b)),
            updY_frame (Or.inr (not_inSub_child1_self b))]
        have hpx : (updateByY t a b xLo xHi yLo yHi uxLo uxHi uyLo uyHi v covered a b).partialX
            = (t a b).partialX := by
          rw [hupd, recompute_at]
          dsimp only
          rw [updY_frame (Or.inr (not_inSub_child2_self b)),
            updY_frame (Or.inr (not_inSub_child1_self b))]
        have hsplit := @olen_split yLo (Int.fdiv (yLo + yHi) 2) yHi
          (max uyLo qyLo) (min uyHi qyHi) hmid.1 hmid.2
        conv_lhs => rw [queryByY]
        conv_rhs => rw [queryByY]
        rw [dif_neg hdisj, dif_neg hdisj, dif_neg hfull, dif_neg hfull, hql, hqr, hfb, hpx,
          ← hsplit]
        ring

/-- How one rectangle update changes one rectangle query, over the outer
subtree rooted at `(a, b)` with row range `[xLo, xHi]`: the result grows by
the value times the cell count of the triple overlap of node range, update
rectangle and query rectangle. -/
theorem queryByX_update (t : Tbl) (uxLo uxHi uyLo uyHi v : Int)
    (a b : Nat) (m xLo xHi qxLo qxHi qyLo qyHi : Int) :
    xLo ≤ xHi → 1 ≤ m → uxLo ≤ uxHi → qxLo ≤ qxHi → qyLo ≤ qyHi →
    InvX t a b m xLo xHi →
    queryByX (updateByX t a b m xLo xHi uxLo uxHi uyLo uyHi v)
        a b m xLo xHi qxLo qxHi qyLo qyHi
      = queryByX t a b m xLo xHi qxLo qxHi qyLo qyHi
        + v * olen (max xLo (max uxLo qxLo)) (min xHi (min uxHi qxHi))
            * olen (max 0 (max uyLo qyLo)) (min (m - 1) (min uyHi qyHi)) := by
  induction a, b, m, xLo, xHi, qxLo, qxHi, qyLo, qyHi using queryByX.induct t with
  | case1 a b m xLo xHi qxLo qxHi qyLo qyHi hdisj =>
    intro hx hm hux hqx0 hqy0 hinv
    have holen : olen (max xLo (max uxLo qxLo)) (min xHi (min uxHi qxHi)) = 0 := by
      simp only [olen]; omega
    conv_lhs => rw [queryByX]
    conv_rhs => rw [queryByX]
    rw [dif_pos hdisj, dif_pos hdisj, holen]
    ring
  | case2 a b m xLo xHi qxLo qxHi qyLo qyHi hdisj hfull =>
    intro hx hm hux hqx0 hqy0 hinv
    rw [InvX] at hinv
    conv_lhs => rw [queryByX]
    conv_rhs => rw [queryByX]
    rw [dif_neg hdisj, dif_neg hdisj, dif_pos hfull, dif_pos hfull]
    by_cases hud : uxHi < xLo ∨ xHi < uxLo
    · rw [updateByX, dif_pos hud]
      have holen : olen (max xLo (max uxLo qxLo)) (min xHi (min uxHi qxHi)) = 0 := by
        simp only [olen]; omega
      rw [holen]
      ring
    · by_cases huf : uxLo ≤ xLo ∧ xHi ≤ uxHi
      · rw [updateByX, dif_neg hud, dif_pos huf]
        rw [queryByY_update t a uxLo uxHi uyLo uyHi v true b xLo xHi 0 (m - 1)
          qxLo qxHi qyLo qyHi (by omega) hqy0 (Or.inr hfull) hinv.1]
        rw [if_pos rfl, if_pos hfull]
        have holen : olen (max xLo (max uxLo qxLo)) (min xHi (min uxHi qxHi))
            = xHi - xLo + 1 := by
          simp only [olen]; omega
        rw [holen]
      · -- row-partial update at this node
        rw [updateByX, dif_neg hud, dif_neg huf]
        have hagx : ∀ q : Nat,
            updateByX
              (updateByX t (2 * a + 1) b m xLo (Int.fdiv (xLo + xHi) 2) uxLo uxHi uyLo uyHi v)
              (2 * a + 2) b m (Int.fdiv (xLo + xHi) 2 + 1) xHi uxLo uxHi uyLo uyHi v a q
              = t a q := by
          intro q
          rw [updX_frame (not_inSub_child2_self a), updX_frame (not_inSub_child1_self a)]
        rw [queryByY_update _ a uxLo uxHi uyLo uyHi v false b xLo xHi 0 (m - 1)
          qxLo qxHi qyLo qyHi (by omega) hqy0 (Or.inr hfull)
          (InvY_congrOn (fun q _ => (hagx q).symm) hinv.1)]
        rw [if_neg (by simp), if_pos hfull]
        rw [queryByY_congrOn _ t a b xLo xHi 0 (m - 1) qxLo qxHi qyLo qyHi
          (fun q _ => hagx q)]
        have holen : olen (max xLo (max uxLo qxLo)) (min xHi (min uxHi qxHi))
            = min uxHi xHi - max uxLo xLo + 1 := by
          simp only [olen]; omega
        rw [holen]
  | case3 a b m xLo xHi qxLo qxHi qyLo qyHi hdisj hfull ihl ihr =>
    intro hx hm hux hqx0 hqy0 hinv
    have hlt : xLo < xHi := by
      rcases lt_or_le xLo xHi with hc | hc
      · exact hc
      · exact absurd ⟨by omega, by omega⟩ hfull
    have hmid := midpoint_bounds hlt
    rw [InvX, if_pos hlt] at hinv
    obtain ⟨hroot, hl, hr⟩ := hinv
    conv_lhs => rw [queryByX]
    conv_rhs => rw [queryByX]
    rw [dif_neg hdisj, dif_neg hdisj, dif_neg hfull, dif_neg hfull]
    by_cases hud : uxHi < xLo ∨ xHi < uxLo
    · rw [updateByX, dif_pos hud]
      have holen : olen (max xLo (max uxLo qxLo)) (min xHi (min uxHi qxHi)) = 0 := by
        simp only [olen]; omega
      rw [holen]
      ring
    · have hxcov2 : ¬(max qxLo xLo ≤ xLo ∧ xHi ≤ min qxHi xHi) := by
        rintro ⟨hc1, hc2⟩
        exact hfull ⟨by omega, by omega⟩
      by_cases huf : uxLo ≤ xLo ∧ xHi ≤ uxHi
      · -- fully covered in rows by the update: a single covered deposit here
        rw [updateByX, dif_neg hud, dif_pos huf]
        have hql : queryByX (updateByY t a b xLo xHi 0 (m - 1) uxLo uxHi uyLo uyHi v true)
              (2 * a + 1) b m xLo (Int.fdiv (xLo + xHi) 2) qxLo qxHi qyLo qyHi
            = queryByX t (2 * a + 1) b m xLo (Int.fdiv (xLo + xHi) 2) qxLo qxHi qyLo qyHi :=
          queryByX_congrOn _ t (2 * a + 1) b m xLo (Int.fdiv (xLo + xHi) 2)
            qxLo qxHi qyLo qyHi
            (fun p q hp => updY_frame (Or.inl (ne_a_of_inSub_child1 hp)))
        have hqr : queryByX (updateByY t a b xLo xHi 0 (m - 1) uxLo uxHi uyLo uyHi v true)
              (2 * a + 2) b m (Int.fdiv (xLo + xHi) 2 + 1) xHi qxLo qxHi qyLo qyHi
            = queryByX t (2 * a + 2) b m (Int.fdiv (xLo + xHi) 2 + 1) xHi
                qxLo qxHi qyLo qyHi :=
          queryByX_congrOn _ t (2 * a + 2) b m (Int.fdiv (xLo + xHi) 2 + 1) xHi
            qxLo qxHi qyLo qyHi
            (fun p q hp => updY_frame (Or.inl (ne_a_of_inSub_child2 hp)))
        rw [hql, hqr]
        rw [queryByY_update t a uxLo uxHi uyLo uyHi v true b xLo xHi 0 (m - 1)
          (max qxLo xLo) (min qxHi xHi) qyLo qyHi (by omega) hqy0
          (Or.inl ⟨le_max_right qxLo xLo, min_le_right qxHi xHi⟩) hroot]
        rw [if_pos rfl, if_neg hxcov2]
        have holen : olen (max xLo (max uxLo qxLo)) (min xHi (min uxHi qxHi))
            = min qxHi xHi - max qxLo xLo + 1 := by
          simp only [olen]; omega
        rw [holen]
        ring
      · -- row-partial update: both outer children updated, then this node
        rw [updateByX, dif_neg hud, dif_neg huf]
        -- left child query
        have hql : queryByX
              (updateByY
                (updateByX
                  (updateByX t (2 * a + 1) b m xLo (Int.fdiv (xLo + xHi) 2)
                    uxLo uxHi uyLo uyHi v)
                  (2 * a + 2) b m (Int.fdiv (xLo + xHi) 2 + 1) xHi uxLo uxHi uyLo uyHi v)
                a b xLo xHi 0 (m - 1) uxLo uxHi uyLo uyHi v false)
              (2 * a + 1) b m xLo (Int.fdiv (xLo + xHi) 2) qxLo qxHi qyLo qyHi
            = queryByX t (2 * a + 1) b m xLo (Int.fdiv (xLo + xHi) 2) qxLo qxHi qyLo qyHi
              + v * olen (max xLo (max uxLo qxLo))
                  (min (Int.fdiv (xLo + xHi) 2) (min uxHi qxHi))
                * olen (max 0 (max uyLo qyLo)) (min (m - 1) (min uyHi qyHi)) := by
          rw [queryByX_congrOn _
            (updateByX t (2 * a + 1) b m xLo (Int.fdiv (xLo + xHi) 2) uxLo uxHi uyLo uyHi v)
            (2 * a + 1) b m xLo (Int.fdiv (xLo + xHi) 2) qxLo qxHi qyLo qyHi
            (fun p q hp => by
              rw [updY_frame (Or.inl (ne_a_of_inSub_child1 hp)),
                updX_frame (inSub_false_of_sibling2 hp)])]
          exact ihl (by omega) hm hux hqx0 hqy0 hl
        -- right child query
        have hqr : queryByX
              (updateByY
                (updateByX
                  (updateByX t (2 * a + 1) b m xLo (Int.fdiv (xLo + xHi) 2)
                    uxLo uxHi uyLo uyHi v)
                  (2 * a + 2) b m (Int.fdiv (xLo + xHi) 2 + 1) xHi uxLo uxHi uyLo uyHi v)
                a b xLo xHi 0 (m - 1) uxLo uxHi uyLo uyHi v false)
              (2 * a + 2) b m (Int.fdiv (xLo + xHi) 2 + 1) xHi qxLo qxHi qyLo qyHi
            = queryByX t (2 * a + 2) b m (Int.fdiv (xLo + xHi) 2 + 1) xHi qxLo qxHi qyLo qyHi
              + v * olen (max (Int.fdiv (xLo + xHi) 2 + 1) (max uxLo qxLo))
                  (min xHi (min uxHi qxHi))
                * olen (max 0 (max uyLo qyLo)) (min (m - 1) (min uyHi qyHi)) := by
          rw [queryByX_congrOn _
            (updateByX t (2 * a + 2) b m (Int.fdiv (xLo + xHi) 2 + 1) xHi
              uxLo uxHi uyLo uyHi v)
            (2 * a + 2) b m (Int.fdiv (xLo + xHi) 2 + 1) xHi qxLo qxHi qyLo qyHi
            (fun p q hp => by
              rw [updY_frame (Or.inl (ne_a_of_inSub_child2 hp))]
              exact updateByX_congrOn
                (updateByX t (2 * a + 1) b m xLo (Int.fdiv (xLo + xHi) 2) uxLo uxHi uyLo uyHi v)
                (2 * a + 2) b m (Int.fdiv (xLo + xHi) 2 + 1) xHi uxLo uxHi uyLo uyHi v t
                (fun p q hp2 => updX_frame (inSub_false_of_sibling1 hp2)) p q hp)]
          exact ihr (by omega) hm hux hqx0 hqy0 hr
        -- this node: clipped-row inner query over an uncovered deposit
        have hagx : ∀ q : Nat,
            updateByX
              (updateByX t (2 * a + 1) b m xLo (Int.fdiv (xLo + xHi) 2) uxLo uxHi uyLo uyHi v)
              (2 * a + 2) b m (Int.fdiv (xLo + xHi) 2 + 1) xHi uxLo uxHi uyLo uyHi v a q
              = t a q := by
          intro q
          rw [updX_frame (not_inSub_child2_self a), updX_frame (not_inSub_child1_self a)]
        rw [hql, hqr]
        rw [queryByY_update _ a uxLo uxHi uyLo uyHi v false b xLo xHi 0 (m - 1)
          (max qxLo xLo) (min qxHi xHi) qyLo qyHi (by omega) hqy0
          (Or.inl ⟨le_max_right qxLo xLo, min_le_right qxHi xHi⟩)
          (InvY_congrOn (fun q _ => (hagx q).symm) hroot)]
        rw [if_neg (by simp), if_neg hxcov2]
        rw [queryByY_congrOn _ t a b xLo xHi 0 (m - 1) (max qxLo xLo) (min qxHi xHi)
          qyLo qyHi (fun q _ => hagx q)]
        have hsplit := @olen_split xLo (Int.fdiv (xLo + xHi) 2) xHi
          (max uxLo qxLo) (min uxHi qxHi) hmid.1 hmid.2
        rw [← hsplit]
        ring

/-! ### Top-level: instances, update lists, and the additivity law -/

/-- The whole-instance invariant: the node table satisfies the structural
invariant over the root outer range `[0, n-1]`. -/
def InvT (s : SegmentTree2D) : Prop :=
  InvX s.tree 0 0 s.m 0 (s.n - 1)

theorem InvT_init (n m : Int) : InvT (SegmentTree2D.init n m) :=
  InvX_zero 0 m (n - 1 - 0).toNat 0 0 (n - 1) le_rfl

theorem InvT_update (s : SegmentTree2D) (qxLo qxHi qyLo qyHi v : Int) (h : InvT s) :
    InvT (s.update qxLo qxHi qyLo qyHi v) :=
  InvX_update s.tree 0 0 s.m 0 (s.n - 1) qxLo qxHi qyLo qyHi v h

theorem applyUpd_n (s : SegmentTree2D) (u : UpdOp) : (applyUpd s u).n = s.n := rfl

theorem applyUpd_m (s : SegmentTree2D) (u : UpdOp) : (applyUpd s u).m = s.m := rfl

/-- Effect of one in-bounds update on one in-bounds query of a well-formed
instance. -/
theorem query_update_step (s : SegmentTree2D) (u : UpdOp)
    (qxLo qxHi qyLo qyHi : Int)
    (hn : 1 ≤ s.n) (hm : 1 ≤ s.m) (hu : u.inB s.n s.m)
    (hq : rectInB s.n s.m qxLo qxHi qyLo qyHi) (hinv : InvT s) :
    (applyUpd s u).query qxLo qxHi qyLo qyHi
      = s.query qxLo qxHi qyLo qyHi + contrib u qxLo qxHi qyLo qyHi := by
  obtain ⟨hu1, hu2, hu3, hu4, hu5, hu6⟩ := hu
  obtain ⟨hq1, hq2, hq3, hq4, hq5, hq6⟩ := hq
  show queryByX (updateByX s.tree 0 0 s.m 0 (s.n - 1) u.xLo u.xHi u.yLo u.yHi u.v)
      0 0 s.m 0 (s.n - 1) qxLo qxHi qyLo qyHi = _
  rw [queryByX_update s.tree u.xLo u.xHi u.yLo u.yHi u.v 0 0 s.m 0 (s.n - 1)
    qxLo qxHi qyLo qyHi (by omega) hm hu2 hq2 hq5 hinv]
  have hx : olen (max 0 (max u.xLo qxLo)) (min (s.n - 1) (min u.xHi qxHi))
      = olen (max u.xLo qxLo) (min u.xHi qxHi) := by
    simp only [olen]; omega
  have hy : olen (max 0 (max u.yLo qyLo)) (min (s.m - 1) (min u.yHi qyHi))
      = olen (max u.yLo qyLo) (min u.yHi qyHi) := by
    simp only [olen]; omega
  rw [hx, hy]
  rfl

/-- Additivity over a list of updates, relative to an arbitrary well-formed
start state. -/
theorem query_foldl (n m : Int) (qxLo qxHi qyLo qyHi : Int)
    (hn : 1 ≤ n) (hm : 1 ≤ m) (hq : rectInB n m qxLo qxHi qyLo qyHi) :
    ∀ (us : List UpdOp) (s : SegmentTree2D), s.n = n → s.m = m → InvT s →
      (∀ u ∈ us, u.inB n m) →
      (us.foldl applyUpd s).query qxLo qxHi qyLo qyHi
        = s.query qxLo qxHi qyLo qyHi
          + (us.map (fun u => contrib u qxLo qxHi qyLo qyHi)).sum := by
  intro us
  induction us with
  | nil =>
    intro s hsn hsm hinv hus
    simp [List.foldl]
  | cons u us ih =>
    intro s hsn hsm hinv hus
    have hstep := query_update_step s u qxLo qxHi qyLo qyHi
      (by omega) (by omega) (by rw [hsn, hsm]; exact hus u (by simp))
      (by rw [hsn, hsm]; exact hq) hinv
    have htail := ih (applyUpd s u) (by rw [applyUpd_n, hsn]) (by rw [applyUpd_m, hsm])
      (InvT_update s u.xLo u.xHi u.yLo u.yHi u.v hinv)
      (fun w hw => hus w (by simp [hw]))
    rw [List.foldl_cons, htail, hstep, List.map_cons, List.sum_cons]
    ring

/-- A fresh instance answers `0` on every query. -/
theorem query_init (n m qxLo qxHi qyLo qyHi : Int) :
    (SegmentTree2D.init n m).query qxLo qxHi qyLo qyHi = 0 :=
  queryByX_zeroTbl 0 0 m 0 (n - 1) qxLo qxHi qyLo qyHi

/-- The additivity / linearity law for a full update history. -/
theorem query_history (n m : Int) (us : List UpdOp) (qxLo qxHi qyLo qyHi : Int)
    (hn : 1 ≤ n) (hm : 1 ≤ m) (hus : ∀ u ∈ us, u.inB n m)
    (hq : rectInB n m qxLo qxHi qyLo qyHi) :
    (us.foldl applyUpd (SegmentTree2D.init n m)).query qxLo qxHi qyLo qyHi
      = (us.map (fun u => contrib u qxLo qxHi qyLo qyHi)).sum := by
  rw [query_foldl n m qxLo qxHi qyLo qyHi hn hm hq us (SegmentTree2D.init n m) rfl rfl
    (InvT_init n m) hus, query_init]
  ring

theorem InvT_foldl (us : List UpdOp) : ∀ s : SegmentTree2D, InvT s →
    InvT (us.foldl applyUpd s) := by
  induction us with
  | nil => intro s hs; exact hs
  | cons u us ih =>
    intro s hs
    exact ih (applyUpd s u) (InvT_update s u.xLo u.xHi u.yLo u.yHi u.v hs)

/-! ### The spec-side invariant of section 3 of the specification -/

/-- Following the specification words: the exact sum of all additions applied
so far whose row-overlap is exactly the full `[xLo, xHi]`, restricted to the
column range `[yLo, yHi]`, expressed per unit row-width.  (For comparison
with the `partialY` field; an addition whose row range contains `[xLo, xHi]`
has row-overlap exactly `[xLo, xHi]`.) -/
def specPartialY (us : List UpdOp) (xLo xHi yLo yHi : Int) : Int :=
  (us.map (fun u => if u.xLo ≤ xLo ∧ xHi ≤ u.xHi
      then u.v * olen (max u.yLo yLo) (min u.yHi yHi) else 0)).sum

/-- Following the specification words: the exact sum of all additions applied
so far whose row-overlap is not the full `[xLo, xHi]`, restricted to the
column range `[yLo, yHi]`.  (For comparison with the `partialBoth` field.) -/
def specPartialBoth (us : List UpdOp) (xLo xHi yLo yHi : Int) : Int :=
  (us.map (fun u => if ¬(u.xLo ≤ xLo ∧ xHi ≤ u.xHi)
      then u.v * olen (max u.xLo xLo) (min u.xHi xHi)
        * olen (max u.yLo yLo) (min u.yHi yHi)
      else 0)).sum

/-- Effect of one in-bounds update on the root node record `(0, 0)`. -/
theorem root_delta_step (s : SegmentTree2D) (u : UpdOp) (n m : Int)
    (hsn : s.n = n) (hsm : s.m = m) (hn : 1 ≤ n) (hm : 1 ≤ m)
    (hu : u.inB n m) (hinv : InvT s) :
    ((applyUpd s u).tree 0 0).partialY
      = (s.tree 0 0).partialY
        + (if u.xLo ≤ 0 ∧ n - 1 ≤ u.xHi
           then u.v * olen (max u.yLo 0) (min u.yHi (m - 1)) else 0)
    ∧ ((applyUpd s u).tree 0 0).partialBoth
      = (s.tree 0 0).partialBoth
        + (if ¬(u.xLo ≤ 0 ∧ n - 1 ≤ u.xHi)
           then u.v * olen (max u.xLo 0) (min u.xHi (n - 1))
             * olen (max u.yLo 0) (min u.yHi (m - 1))
           else 0) := by
  obtain ⟨hu1, hu2, hu3, hu4, hu5, hu6⟩ := hu
  subst hsn
  subst hsm
  have hinvY : InvY s.tree 0 0 0 (s.m - 1) := by
    rw [InvT, InvX] at hinv
    exact hinv.1
  have hnd : ¬(u.xHi < 0 ∨ s.n - 1 < u.xLo) := by omega
  show (updateByX s.tree 0 0 s.m 0 (s.n - 1) u.xLo u.xHi u.yLo u.yHi u.v 0 0).partialY = _
    ∧ (updateByX s.tree 0 0 s.m 0 (s.n - 1) u.xLo u.xHi u.yLo u.yHi u.v 0 0).partialBoth = _
  by_cases hful : u.xLo ≤ 0 ∧ s.n - 1 ≤ u.xHi
  · rw [updateByX, dif_neg hnd, dif_pos hful]
    obtain ⟨hd1, hd2⟩ := updateByY_root_delta s.tree 0 0 0 (s.n - 1) 0 (s.m - 1)
      u.xLo u.xHi u.yLo u.yHi u.v true (by omega) hinvY
    have holen : olen (max 0 u.yLo) (min (s.m - 1) u.yHi)
        = olen (max u.yLo 0) (min u.yHi (s.m - 1)) := by
      simp only [olen]; omega
    rw [hd1, hd2, if_pos rfl, if_pos rfl, if_pos hful, if_neg (by tauto), holen]
    exact ⟨rfl, by ring⟩
  · rw [updateByX, dif_neg hnd, dif_neg hful]
    have hfr : ∀ q : Nat,
        updateByX
          (updateByX s.tree (2 * 0 + 1) 0 s.m 0 (Int.fdiv (0 + (s.n - 1)) 2)
            u.xLo u.xHi u.yLo u.yHi u.v)
          (2 * 0 + 2) 0 s.m (Int.fdiv (0 + (s.n - 1)) 2 + 1) (s.n - 1)
          u.xLo u.xHi u.yLo u.yHi u.v 0 q
        = s.tree 0 q := by
      intro q
      rw [updX_frame (not_inSub_child2_self 0), updX_frame (not_inSub_child1_self 0)]
    obtain ⟨hd1, hd2⟩ := updateByY_root_delta _ 0 0 0 (s.n - 1) 0 (s.m - 1)
      u.xLo u.xHi u.yLo u.yHi u.v false (by omega)
      (InvY_congrOn (fun q _ => (hfr q).symm) hinvY)
    have holen : olen (max 0 u.yLo) (min (s.m - 1) u.yHi)
        = olen (max u.yLo 0) (min u.yHi (s.m - 1)) := by
      simp only [olen]; omega
    have hw : min u.xHi (s.n - 1) - max u.xLo 0 + 1
        = olen (max u.xLo 0) (min u.xHi (s.n - 1)) := by
      simp only [olen]; omega
    rw [if_neg (show ¬(false = true) by simp)] at hd1
    rw [if_neg (show ¬(false = true) by simp)] at hd2
    rw [hd1, hd2, if_neg hful, if_pos hful, hfr 0, holen, hw]
    exact ⟨by ring, by ring⟩

/-- The two root accumulators after a whole update history, relative to an
arbitrary well-formed start state. -/
theorem root_foldl (n m : Int) (hn : 1 ≤ n) (hm : 1 ≤ m) :
    ∀ (us : List UpdOp) (s : SegmentTree2D), s.n = n → s.m = m → InvT s →
      (∀ u ∈ us, u.inB n m) →
      ((us.foldl applyUpd s).tree 0 0).partialY
          = (s.tree 0 0).partialY + specPartialY us 0 (n - 1) 0 (m - 1)
        ∧ ((us.foldl applyUpd s).tree 0 0).partialBoth
          = (s.tree 0 0).partialBoth + specPartialBoth us 0 (n - 1) 0 (m - 1) := by
  intro us
  induction us with
  | nil =>
    intro s hsn hsm hinv hus
    simp [specPartialY, specPartialBoth]
  | cons u us ih =>
    intro s hsn hsm hinv hus
    obtain ⟨hstep1, hstep2⟩ := root_delta_step s u n m hsn hsm hn hm
      (hus u (by simp)) hinv
    obtain ⟨ht1, ht2⟩ := ih (applyUpd s u) (by rw [applyUpd_n, hsn])
      (by rw [applyUpd_m, hsm]) (InvT_update s u.xLo u.xHi u.yLo u.yHi u.v hinv)
      (fun w hw => hus w (by simp [hw]))
    constructor
    · rw [List.foldl_cons, ht1, hstep1]
      simp only [specPartialY, List.map_cons, List.sum_cons]
      ring
    · rw [List.foldl_cons, ht2, hstep2]
      simp only [specPartialBoth, List.map_cons, List.sum_cons]
      ring

/-! ### The claims -/

/-- Claim C1: for every instance with `n ≥ 1` rows and `m ≥ 1` columns and
every finite sequence of in-bounds updates, a subsequent query over any
in-bounds rectangle returns the sum, over all updates `(rect_i, v_i)` applied
so far, of `v_i` times the number of grid cells in the intersection of
`rect_i` with the query rectangle. -/
theorem claim_c1 (n m : Int) (hn : 1 ≤ n) (hm : 1 ≤ m) (us : List UpdOp)
    (hus : ∀ u ∈ us, u.inB n m) (qxLo qxHi qyLo qyHi : Int)
    (hq : rectInB n m qxLo qxHi qyLo qyHi) :
    (us.foldl applyUpd (SegmentTree2D.init n m)).query qxLo qxHi qyLo qyHi
      = (us.map (fun u => contrib u qxLo qxHi qyLo qyHi)).sum :=
  query_history n m us qxLo qxHi qyLo qyHi hn hm hus hq

theorem claim_c1_witness :
    (([⟨0, 1, 0, 1, 3⟩, ⟨1, 1, 0, 0, 5⟩] : List UpdOp).foldl applyUpd
        (SegmentTree2D.init 2 2)).query 0 1 0 1
      = (([⟨0, 1, 0, 1, 3⟩, ⟨1, 1, 0, 0, 5⟩] : List UpdOp).map
          (fun u => contrib u 0 1 0 1)).sum :=
  claim_c1 2 2 (by norm_num) (by norm_num) _ (by decide) 0 1 0 1 (by decide)

/-- Claim C4: a freshly constructed instance with `n ≥ 1` rows and `m ≥ 1`
columns answers zero on every in-bounds query rectangle. -/
theorem claim_c4 (n m : Int) (hn : 1 ≤ n) (hm : 1 ≤ m) (qxLo qxHi qyLo qyHi : Int)
    (hq : rectInB n m qxLo qxHi qyLo qyHi) :
    (SegmentTree2D.init n m).query qxLo qxHi qyLo qyHi = 0 :=
  query_init n m qxLo qxHi qyLo qyHi

theorem claim_c4_witness :
    (SegmentTree2D.init 3 2).query 0 2 0 1 = 0 :=
  claim_c4 3 2 (by norm_num) (by norm_num) 0 2 0 1 (by decide)

/-- Claim C5: on a `4 x 4` instance, after `update(0,3,0,3,5)` the query
`(0,3,0,3)` returns 80; after additionally `update(1,2,1,2,10)` the query
`(1,2,1,2)` returns 60, `(0,0,0,0)` returns 5 and `(0,3,0,3)` returns 120. -/
theorem claim_c5 :
    ((SegmentTree2D.init 4 4).update 0 3 0 3 5).query 0 3 0 3 = 80
    ∧ (((SegmentTree2D.init 4 4).update 0 3 0 3 5).update 1 2 1 2 10).query 1 2 1 2 = 60
    ∧ (((SegmentTree2D.init 4 4).update 0 3 0 3 5).update 1 2 1 2 10).query 0 0 0 0 = 5
    ∧ (((SegmentTree2D.init 4 4).update 0 3 0 3 5).update 1 2 1 2 10).query 0 3 0 3 = 120 := by
  have h1 := query_history 4 4 [⟨0, 3, 0, 3, 5⟩] 0 3 0 3
    (by norm_num) (by norm_num) (by decide) (by decide)
  have h2 := query_history 4 4 [⟨0, 3, 0, 3, 5⟩, ⟨1, 2, 1, 2, 10⟩] 1 2 1 2
    (by norm_num) (by norm_num) (by decide) (by decide)
  have h3 := query_history 4 4 [⟨0, 3, 0, 3, 5⟩, ⟨1, 2, 1, 2, 10⟩] 0 0 0 0
    (by norm_num) (by norm_num) (by decide) (by decide)
  have h4 := query_history 4 4 [⟨0, 3, 0, 3, 5⟩, ⟨1, 2, 1, 2, 10⟩] 0 3 0 3
    (by norm_num) (by norm_num) (by decide) (by decide)
  simp only [List.foldl_cons, List.foldl_nil, List.map_cons, List.map_nil,
    List.sum_cons, List.sum_nil] at h1 h2 h3 h4
  norm_num [applyUpd, contrib, olen] at h1 h2 h3 h4
  exact ⟨h1, h2, h3, h4⟩

/-- Claim C8: applying a set of in-bounds updates in any order yields
identical query results for every in-bounds rectangle. -/
theorem claim_c8 (n m : Int) (hn : 1 ≤ n) (hm : 1 ≤ m) (us vs : List UpdOp)
    (hperm : us.Perm vs) (hus : ∀ u ∈ us, u.inB n m)
    (qxLo qxHi qyLo qyHi : Int) (hq : rectInB n m qxLo qxHi qyLo qyHi) :
    (us.foldl applyUpd (SegmentTree2D.init n m)).query qxLo qxHi qyLo qyHi
      = (vs.foldl applyUpd (SegmentTree2D.init n m)).query qxLo qxHi qyLo qyHi := by
  rw [query_history n m us qxLo qxHi qyLo qyHi hn hm hus hq,
    query_history n m vs qxLo qxHi qyLo qyHi hn hm
      (fun u hu => hus u (hperm.mem_iff.mpr hu)) hq]
  exact (hperm.map (fun u => contrib u qxLo qxHi qyLo qyHi)).sum_eq

theorem claim_c8_witness :
    (([⟨0, 0, 0, 0, 2⟩, ⟨1, 1, 1, 1, 4⟩] : List UpdOp).foldl applyUpd
        (SegmentTree2D.init 2 2)).query 0 1 0 1
      = (([⟨1, 1, 1, 1, 4⟩, ⟨0, 0, 0, 0, 2⟩] : List UpdOp).foldl applyUpd
          (SegmentTree2D.init 2 2)).query 0 1 0 1 :=
  claim_c8 2 2 (by norm_num) (by norm_num) _ _ (by decide) (by decide) 0 1 0 1 (by decide)

/-- Claim C9: the mutually recursive computations terminate: each call to
`updateByX`, `updateByY`, `queryByX`, `queryByY` runs to completion and
returns a value.  In this development the four functions are total Lean
functions whose definitions carry the termination proof (the ranges shrink
strictly at every recursive call), so every call has a result. -/
theorem claim_c9 (t : Tbl) (a b : Nat)
    (m xLo xHi yLo yHi qxLo qxHi qyLo qyHi v : Int) (covered : Bool) :
    (∃ r : Int, queryByX t a b m xLo xHi qxLo qxHi qyLo qyHi = r)
    ∧ (∃ t2 : Tbl, updateByX t a b m xLo xHi qxLo qxHi qyLo qyHi v = t2)
    ∧ (∃ r : Int, queryByY t a b xLo xHi yLo yHi qxLo qxHi qyLo qyHi = r)
    ∧ (∃ t2 : Tbl, updateByY t a b xLo xHi yLo yHi qxLo qxHi qyLo qyHi v covered = t2) :=
  ⟨⟨_, rfl⟩, ⟨_, rfl⟩, ⟨_, rfl⟩, ⟨_, rfl⟩⟩

/-- Claim C10: after construction and after every complete update, the node
table satisfies, at every outer node of the row tree and every inner node of
its column tree, the two consistency equations
`partialBoth = left.partialBoth + right.partialBoth + partialX * (yHi - yLo + 1)` and
`partialY = left.partialY + right.partialY + fullBoth * (yHi - yLo + 1)`
(children at inner indices `2j+1` and `2j+2`); at leaves the children entries
are never written and stay zero, so the equations hold there as well.  This
is `InvT`, i.e. `InvX` at the root, whose definition is exactly these
equations over all tree nodes. -/
theorem claim_c10 (n m : Int) (us : List UpdOp) :
    InvT (us.foldl applyUpd (SegmentTree2D.init n m)) :=
  InvT_foldl us (SegmentTree2D.init n m) (InvT_init n m)

/-- Claim C2, counterexample: the claim demands that constructing with
`n ≤ 0` raises a descriptive error, but the source constructor contains no
validation and no raise on any path: calling it with `n = 0` (and `m = 4`)
returns an instance normally. -/
theorem claim_c2_counterexample :
    SegmentTree2D.initE 0 4 = Except.ok (SegmentTree2D.init 0 4) ∧ (0 : Int) ≤ 0 :=
  ⟨rfl, le_refl 0⟩

/-- Claim C2, amended: the class performs no validation and has no
fail-fast error path.  The constructor returns normally for every `n`, `m`,
including non-positive ones.  On every instance with positive dimensions,
`update` and `query` return normally for arbitrary (out-of-range or
inverted) rectangle coordinates, with no clamping step.  But on a degenerate
instance built with `n ≤ 0` or `m ≤ 0` the table is too small for the
recursion and the first out-of-range `self.tree[i][j]` access raises
`IndexError` — concretely, `SegmentTree2D(0, 1).update(-5, 5, 0, 0, 7)`
fails this way. -/
theorem claim_c2_amended (n m : Int) (s : SegmentTree2D) (qxLo qxHi qyLo qyHi v : Int)
    (hn : 1 ≤ s.n) (hm : 1 ≤ s.m) :
    SegmentTree2D.initE n m = Except.ok (SegmentTree2D.init n m)
    ∧ s.updateE qxLo qxHi qyLo qyHi v = Except.ok (s.update qxLo qxHi qyLo qyHi v)
    ∧ s.queryE qxLo qxHi qyLo qyHi = Except.ok (s.query qxLo qxHi qyLo qyHi)
    ∧ (SegmentTree2D.init 0 1).updateE (-5) 5 0 0 7 = Except.error "IndexError" :=
  ⟨rfl, updateE_ok s qxLo qxHi qyLo qyHi v hn hm,
    queryE_ok s qxLo qxHi qyLo qyHi hn hm, updateE_degenerate⟩

/-- Witness for the amended claim C2 at concrete inputs: the instance
`SegmentTree2D(1, 2)` has positive dimensions, and the theorem applies to it
with the rectangle `[0,0] x [0,1]` and `v = 5`. -/
theorem claim_c2_amended_witness :
    (1 : Int) ≤ (SegmentTree2D.init 1 2).n ∧ (1 : Int) ≤ (SegmentTree2D.init 1 2).m
    ∧ (SegmentTree2D.initE 3 4 = Except.ok (SegmentTree2D.init 3 4)
      ∧ (SegmentTree2D.init 1 2).updateE 0 0 0 1 5
          = Except.ok ((SegmentTree2D.init 1 2).update 0 0 0 1 5)
      ∧ (SegmentTree2D.init 1 2).queryE 0 0 0 1
          = Except.ok ((SegmentTree2D.init 1 2).query 0 0 0 1)
      ∧ (SegmentTree2D.init 0 1).updateE (-5) 5 0 0 7 = Except.error "IndexError") :=
  ⟨by decide, by decide,
    claim_c2_amended 3 4 (SegmentTree2D.init 1 2) 0 0 0 1 5 (by decide) (by decide)⟩

/-- Claim C3, counterexample: the stated invariant fails at nodes below a
lazy deposit.  On a `2 x 1` instance, after `update(0,1,0,0,1)` the deposit
happens at the root outer node only; the outer node with index 1 (row range
`[0,0]`, whose row-overlap with the update is exactly `[0,0]`) keeps
`partialY = 0` in its inner root (column range `[0,0]`), whereas the
specification formula demands `1`. -/
theorem claim_c3_counterexample :
    ((applyUpd (SegmentTree2D.init 2 1) ⟨0, 1, 0, 0, 1⟩).tree 1 0).partialY = 0
    ∧ specPartialY [⟨0, 1, 0, 0, 1⟩] 0 0 0 0 = 1 := by
  constructor
  · show (updateByX (fun _ _ => Node.zero) 0 0 1 0 (2 - 1) 0 1 0 0 1 1 0).partialY = 0
    rw [updateByX, dif_neg (by norm_num), dif_pos (by norm_num),
      updateByY, dif_neg (by norm_num), dif_pos (by norm_num), if_pos rfl,
      setNode_other (by norm_num)]
    rfl
  · norm_num [specPartialY, olen]

/-- Claim C3, amended: the stated characterization holds at the root pair
(outer node 0 with row range `[0, n-1]`, inner node 0 with column range
`[0, m-1]`), which is visited by every in-bounds update: after every update
history, `partialBoth` there equals the exact sum of all additions whose row
range is not all of `[0, n-1]` (value times row-overlap times column-overlap)
and `partialY` equals the per-unit-row-width sum of all additions whose row
range is all of `[0, n-1]` (value times column-overlap); at nodes below a
lazy deposit the fields are stale and the characterization does not hold. -/
theorem claim_c3_amended (n m : Int) (hn : 1 ≤ n) (hm : 1 ≤ m) (us : List UpdOp)
    (hus : ∀ u ∈ us, u.inB n m) :
    ((us.foldl applyUpd (SegmentTree2D.init n m)).tree 0 0).partialY
        = specPartialY us 0 (n - 1) 0 (m - 1)
    ∧ ((us.foldl applyUpd (SegmentTree2D.init n m)).tree 0 0).partialBoth
        = specPartialBoth us 0 (n - 1) 0 (m - 1) := by
  obtain ⟨h1, h2⟩ := root_foldl n m hn hm us (SegmentTree2D.init n m) rfl rfl
    (InvT_init n m) hus
  constructor
  · rw [h1]
    simp [SegmentTree2D.init, Node.zero]
  · rw [h2]
    simp [SegmentTree2D.init, Node.zero]

theorem claim_c3_amended_witness :
    ((([⟨0, 1, 0, 0, 1⟩] : List UpdOp).foldl applyUpd
        (SegmentTree2D.init 2 1)).tree 0 0).partialY
        = specPartialY [⟨0, 1, 0, 0, 1⟩] 0 (2 - 1) 0 (1 - 1)
    ∧ ((([⟨0, 1, 0, 0, 1⟩] : List UpdOp).foldl applyUpd
        (SegmentTree2D.init 2 1)).tree 0 0).partialBoth
        = specPartialBoth [⟨0, 1, 0, 0, 1⟩] 0 (2 - 1) 0 (1 - 1) :=
  claim_c3_amended 2 1 (by norm_num) (by norm_num) _ (by decide)

/-- Claim C6: in the column pass of an update, a node whose column range
lies fully inside the update column bounds mutates exactly two fields
(`fullBoth += v` and `partialY += v*(yHi-yLo+1)` when the rows were fully
covered; `partialX += v*w` and `partialBoth += v*w*(yHi-yLo+1)` with
`w = min(qxHi,xHi) - max(qxLo,xLo) + 1` otherwise), leaving the other two
fields and every other table entry unchanged; at a node with partial column
overlap, after recursing into both column children, `partialBoth` is
reassigned to `left.partialBoth + right.partialBoth + partialX*(yHi-yLo+1)`
and `partialY` to `left.partialY + right.partialY + fullBoth*(yHi-yLo+1)`. -/
theorem claim_c6 (t : Tbl) (a b : Nat) (xLo xHi yLo yHi qxLo qxHi qyLo qyHi v : Int)
    (covered : Bool) (hdisj : ¬(qyHi < yLo ∨ yHi < qyLo)) :
    (qyLo ≤ yLo ∧ yHi ≤ qyHi →
      (covered = true →
        (updateByY t a b xLo xHi yLo yHi qxLo qxHi qyLo qyHi v covered a b).fullBoth
            = (t a b).fullBoth + v
        ∧ (updateByY t a b xLo xHi yLo yHi qxLo qxHi qyLo qyHi v covered a b).partialY
            = (t a b).partialY + v * (yHi - yLo + 1)
        ∧ (updateByY t a b xLo xHi yLo yHi qxLo qxHi qyLo qyHi v covered a b).partialX
            = (t a b).partialX
        ∧ (updateByY t a b xLo xHi yLo yHi qxLo qxHi qyLo qyHi v covered a b).partialBoth
            = (t a b).partialBoth
        ∧ ∀ p q : Nat, ¬(p = a ∧ q = b) →
            updateByY t a b xLo xHi yLo yHi qxLo qxHi qyLo qyHi v covered p q = t p q)
      ∧ (covered = false →
        (updateByY t a b xLo xHi yLo yHi qxLo qxHi qyLo qyHi v covered a b).partialX
            = (t a b).partialX + v * (min qxHi xHi - max qxLo xLo + 1)
        ∧ (updateByY t a b xLo xHi yLo yHi qxLo qxHi qyLo qyHi v covered a b).partialBoth
            = (t a b).partialBoth + v * (min qxHi xHi - max qxLo xLo + 1) * (yHi - yLo + 1)
        ∧ (updateByY t a b xLo xHi yLo yHi qxLo qxHi qyLo qyHi v covered a b).fullBoth
            = (t a b).fullBoth
        ∧ (updateByY t a b xLo xHi yLo yHi qxLo qxHi qyLo qyHi v covered a b).partialY
            = (t a b).partialY
        ∧ ∀ p q : Nat, ¬(p = a ∧ q = b) →
            updateByY t a b xLo xHi yLo yHi qxLo qxHi qyLo qyHi v covered p q = t p q))
    ∧ (¬(qyLo ≤ yLo ∧ yHi ≤ qyHi) →
        (updateByY t a b xLo xHi yLo yHi qxLo qxHi qyLo qyHi v covered a b).partialBoth
          = (updateByY t a b xLo xHi yLo yHi qxLo qxHi qyLo qyHi v covered a (2 * b + 1)).partialBoth
            + (updateByY t a b xLo xHi yLo yHi qxLo qxHi qyLo qyHi v covered a (2 * b + 2)).partialBoth
            + (t a b).partialX * (yHi - yLo + 1)
        ∧ (updateByY t a b xLo xHi yLo yHi qxLo qxHi qyLo qyHi v covered a b).partialY
          = (updateByY t a b xLo xHi yLo yHi qxLo qxHi qyLo qyHi v covered a (2 * b + 1)).partialY
            + (updateByY t a b xLo xHi yLo yHi qxLo qxHi qyLo qyHi v covered a (2 * b + 2)).partialY
            + (t a b).fullBoth * (yHi - yLo + 1)) := by
  constructor
  · intro hfull
    constructor
    · intro hcov
      subst hcov
      rw [updateByY, dif_neg hdisj, dif_pos hfull, if_pos rfl, setNode_same]
      refine ⟨rfl, rfl, rfl, rfl, fun p q hpq => setNode_other hpq⟩
    · intro hcov
      subst hcov
      rw [updateByY, dif_neg hdisj, dif_pos hfull, if_neg (by simp), setNode_same]
      refine ⟨rfl, rfl, rfl, rfl, fun p q hpq => setNode_other hpq⟩
  · intro hfull
    rw [updateByY, dif_neg hdisj, dif_neg hfull, recompute_at,
      recompute_other (show ¬(a = a ∧ 2 * b + 1 = b) by omega),
      recompute_other (show ¬(a = a ∧ 2 * b + 2 = b) by omega)]
    dsimp only
    rw [updY_frame (Or.inr (not_inSub_child2_self b)),
      updY_frame (Or.inr (not_inSub_child1_self b))]
    exact ⟨rfl, rfl⟩

theorem claim_c6_witness :
    (updateByY (fun _ _ => Node.zero) 0 0 0 1 0 1 0 1 0 1 7 true 0 0).fullBoth
      = ((fun _ _ => Node.zero : Tbl) 0 0).fullBoth + 7 :=
  (((claim_c6 (fun _ _ => Node.zero) 0 0 0 1 0 1 0 1 0 1 7 true
      (by norm_num)).1 (by norm_num)).1 rfl).1

/-- Claim C7: in the column pass of a query, a node whose column range lies
fully inside the query column bounds returns
`partialBoth + partialY*(xHi-xLo+1)` when the row range is also fully
covered and `partialY*(qxHi-qxLo+1)` otherwise; a node with partial column
overlap returns the left result plus the right result plus the lazy term
`fullBoth*|tx|*|ty|`, with `partialX*|ty|` added exactly when the row range
is fully covered, where `tx`, `ty` are the (assumed non-empty) row and
column overlaps. -/
theorem claim_c7 (t : Tbl) (a b : Nat) (xLo xHi yLo yHi qxLo qxHi qyLo qyHi : Int)
    (hdisj : ¬(qyHi < yLo ∨ yHi < qyLo))
    (htx : max xLo qxLo ≤ min xHi qxHi) (hty : max yLo qyLo ≤ min yHi qyHi) :
    (qyLo ≤ yLo ∧ yHi ≤ qyHi →
      (qxLo ≤ xLo ∧ xHi ≤ qxHi →
        queryByY t a b xLo xHi yLo yHi qxLo qxHi qyLo qyHi
          = (t a b).partialBoth + (t a b).partialY * (xHi - xLo + 1))
      ∧ (¬(qxLo ≤ xLo ∧ xHi ≤ qxHi) →
        queryByY t a b xLo xHi yLo yHi qxLo qxHi qyLo qyHi
          = (t a b).partialY * (qxHi - qxLo + 1)))
    ∧ (¬(qyLo ≤ yLo ∧ yHi ≤ qyHi) →
        queryByY t a b xLo xHi yLo yHi qxLo qxHi qyLo qyHi
          = queryByY t a (2 * b + 1) xLo xHi yLo (Int.fdiv (yLo + yHi) 2) qxLo qxHi qyLo qyHi
            + queryByY t a (2 * b + 2) xLo xHi (Int.fdiv (yLo + yHi) 2 + 1) yHi
                qxLo qxHi qyLo qyHi
            + ((t a b).fullBoth * olen (max xLo qxLo) (min xHi qxHi)
                  * olen (max yLo qyLo) (min yHi qyHi)
              + (if qxLo ≤ xLo ∧ xHi ≤ qxHi
                 then (t a b).partialX * olen (max yLo qyLo) (min yHi qyHi) else 0))) := by
  have holenx : olen (max xLo qxLo) (min xHi qxHi) = min xHi qxHi - max xLo qxLo + 1 := by
    simp only [olen]; omega
  have holeny : olen (max yLo qyLo) (min yHi qyHi) = min yHi qyHi - max yLo qyLo + 1 := by
    simp only [olen]; omega
  constructor
  · intro hfull
    constructor
    · intro hxcov
      rw [queryByY, dif_neg hdisj, dif_pos hfull, if_pos hxcov]
    · intro hxcov
      rw [queryByY, dif_neg hdisj, dif_pos hfull, if_neg hxcov]
  · intro hfull
    rw [queryByY, dif_neg hdisj, dif_neg hfull, holenx, holeny]

theorem claim_c7_witness :
    queryByY (fun _ _ => Node.zero) 0 0 0 1 0 1 0 1 0 1
      = ((fun _ _ => Node.zero : Tbl) 0 0).partialBoth
        + ((fun _ _ => Node.zero : Tbl) 0 0).partialY * (1 - 0 + 1) :=
  ((claim_c7 (fun _ _ => Node.zero) 0 0 0 1 0 1 0 1 0 1
      (by norm_num) (by norm_num) (by norm_num)).1 (by norm_num)).1 (by norm_num)

end SumQuery
